import Mathlib

/-!
Verification of the dotenv parser/serializer (src/parse.js, src/serialize.js).

JavaScript strings are modelled as `List Char`; the grammar-rule interpreter
`extract`, the lexer `lexAll`, the assembler `assembleLoop`, the string decoder
`parseString` and the serializer `serialize` are shallow embeddings of the
corresponding functions in the source.  The interpreter takes a fuel argument
to make the (source-level genuinely recursive) rule recursion structurally
terminating; `parse` instantiates the fuel with a budget that is never
exhausted on any input.
-/

namespace Dotenv

/-- The apostrophe character (written via its code point). -/
def apos : Char := Char.ofNat 39

/-- Rule identifiers: the keys of the `TOKENS` table in src/parse.js. -/
inductive RuleName where
  | Whitespace | Comment | CommentChars | CommentChar | keyedEntry
  | Key | AlphaNumUChars | AlphaUChar | AlphaNumUChar
  | String | UnquotedString | SafeChar | UnquotedStringChars
  | EmptyString | QuotedString | QuotedStringChars | QuotedStringChar
  | SingleQuotedString | SingleQuotedStringChars | SingleQuotedStringChar
  | UnescapedQuotedStringChar | UnescapedSingleQuotedStringChar | EscapedChars
deriving DecidableEq, Repr

/-- A captured element: a string, or a nested token `{value, token}` as
returned by `extract` (`Cap.tok name value`). -/
inductive Cap where
  | str (v : List Char)
  | tok (name : Option RuleName) (value : List Cap)

/-- The `value` field of a capture.  `extract` only ever produces `Cap.tok`;
on a raw string the source would read the undefined `value` property. -/
def Cap.vals : Cap → List Cap
  | .str _ => []
  | .tok _ v => v

/-- The `token` (rule name) field of a capture. -/
def Cap.tokName : Cap → Option RuleName
  | .str _ => none
  | .tok n _ => n

/-- One element of a sequence rule: a literal string, a single-character
class (the one-character regexes of the source), or a reference to a
sub-rule with `optional` and `flatten` flags. -/
inductive TokenPart where
  | lit (s : List Char)
  | regex (p : Char → Bool)
  | sub (type : RuleName) (opt flat : Bool)

/-- A grammar rule: a sequence of parts (with an optional escape-replacer,
the only replacer in the table), or an ordered alternation (`$or`). -/
inductive Rule where
  | seq (parts : List TokenPart) (hasReplacer : Bool)
  | alt (alts : List RuleName)

/-- JS `/\s/` by code point: space, tab, LF, VT, FF, CR, NBSP, and the
Unicode space/line separators. -/
def isSpaceChar (c : Char) : Bool :=
  c.toNat = 32 || c.toNat = 9 || c.toNat = 10 || c.toNat = 11 || c.toNat = 12 ||
  c.toNat = 13 || c.toNat = 160 || c.toNat = 0x1680 ||
  (0x2000 ≤ c.toNat && c.toNat ≤ 0x200a) ||
  c.toNat = 0x2028 || c.toNat = 0x2029 || c.toNat = 0x202f ||
  c.toNat = 0x205f || c.toNat = 0x3000 || c.toNat = 0xfeff

/-- JS `/[^\n]/`. -/
def isCommentChar (c : Char) : Bool := !(c = '\n')

/-- JS `/[a-zA-Z_]/` by code point. -/
def isAlphaU (c : Char) : Bool :=
  (97 ≤ c.toNat && c.toNat ≤ 122) || (65 ≤ c.toNat && c.toNat ≤ 90) ||
  c.toNat = 95

/-- JS `/[a-zA-Z0-9_]/` by code point. -/
def isAlphaNumU (c : Char) : Bool :=
  (97 ≤ c.toNat && c.toNat ≤ 122) || (65 ≤ c.toNat && c.toNat ≤ 90) ||
  (48 ≤ c.toNat && c.toNat ≤ 57) || c.toNat = 95

/-- JS `/[^\n"']/`. -/
def isSafeChar (c : Char) : Bool := !(c = '\n' || c = '"' || c = apos)

/-- JS `/[^\\\n]/`. -/
def isUnquotedStringChar (c : Char) : Bool := !(c = '\\' || c = '\n')

/-- JS `/[^\\"]/`. -/
def isUnescQChar (c : Char) : Bool := !(c = '\\' || c = '"')

/-- JS `/[^']/`. -/
def isUnescSQChar (c : Char) : Bool := !(c = apos)

/-- JS `/[ntbfr"\\]/`. -/
def isEscLetter (c : Char) : Bool :=
  c = 'n' || c = 't' || c = 'b' || c = 'f' || c = 'r' || c = '"' || c = '\\'

/-- The `TOKENS` table of src/parse.js, rule for rule. -/
def TOKENS : RuleName → Rule
  | .Whitespace => .seq [.regex isSpaceChar, .sub .Whitespace true true] false
  | .Comment => .seq [.lit ['#'], .sub .CommentChars true false] false
  | .CommentChars =>
      .seq [.sub .CommentChar false true, .sub .CommentChars true true] false
  | .CommentChar => .seq [.regex isCommentChar] false
  | .keyedEntry =>
      .seq [.sub .Key false false, .lit ['='], .sub .String true false] false
  | .Key => .seq [.sub .AlphaUChar false true, .sub .AlphaNumUChars true true] false
  | .AlphaNumUChars =>
      .seq [.sub .AlphaNumUChar false true, .sub .AlphaNumUChars true true] false
  | .AlphaUChar => .seq [.regex isAlphaU] false
  | .AlphaNumUChar => .seq [.regex isAlphaNumU] false
  | .String =>
      .alt [.UnquotedString, .EmptyString, .QuotedString, .SingleQuotedString]
  | .UnquotedString =>
      .seq [.sub .SafeChar false true, .sub .UnquotedStringChars true true] false
  | .SafeChar => .seq [.regex isSafeChar] false
  | .UnquotedStringChars =>
      .seq [.regex isUnquotedStringChar, .sub .UnquotedStringChars true true] false
  | .EmptyString => .seq [.lit ['"', '"']] false
  | .QuotedString =>
      .seq [.lit ['"'], .sub .QuotedStringChars true false, .lit ['"']] false
  | .QuotedStringChars =>
      .seq [.sub .QuotedStringChar false true, .sub .QuotedStringChars true true] false
  | .QuotedStringChar => .alt [.UnescapedQuotedStringChar, .EscapedChars]
  | .SingleQuotedString =>
      .seq [.lit [apos], .sub .SingleQuotedStringChars true false, .lit [apos]] false
  | .SingleQuotedStringChars =>
      .seq [.sub .SingleQuotedStringChar false true,
            .sub .SingleQuotedStringChars true true] false
  | .SingleQuotedStringChar => .alt [.UnescapedSingleQuotedStringChar]
  | .UnescapedQuotedStringChar => .seq [.regex isUnescQChar] false
  | .UnescapedSingleQuotedStringChar => .seq [.regex isUnescSQChar] false
  | .EscapedChars => .seq [.lit ['\\'], .regex isEscLetter] true

/-- `getTokenName`: the reverse lookup of a rule in the table.  For
`EscapedChars` the source first unwraps `token.token`, so the inner array is
not found in the table and the name comes back `null`. -/
def tokenNameOf (n : RuleName) : Option RuleName :=
  if n = .EscapedChars then none else some n

/-- JS `source.charAt(i)` (empty result at or beyond the end modelled as
`none`). -/
def charAt (src : List Char) (i : Nat) : Option Char := (src.drop i).head?

/-- JS `source.substr(i, s.length) === s`. -/
def litMatches (src : List Char) (i : Nat) (s : List Char) : Bool :=
  decide ((src.drop i).take s.length = s)

/-- The "concat consecutive strings" sanitation loop of `extract`: adjacent
string captures are merged into one. -/
def sanitize : List Cap → List Cap
  | [] => []
  | Cap.str a :: rest =>
    match sanitize rest with
    | Cap.str b :: out => Cap.str (a ++ b) :: out
    | out => Cap.str a :: out
  | x :: rest => x :: sanitize rest

/-- The switch in the `EscapedChars` replacer: decode a two-character escape
pair; anything else passes through. -/
def decodeEscape (s : List Char) : List Char :=
  if s = ['\\', '\\'] then ['\\']
  else if s = ['\\', 'n'] then ['\n']
  else if s = ['\\', 't'] then ['\t']
  else if s = ['\\', 'b'] then [Char.ofNat 8]
  else if s = ['\\', 'f'] then [Char.ofNat 12]
  else if s = ['\\', 'r'] then ['\r']
  else if s = ['\\', '"'] then ['"']
  else s

/-- The `EscapedChars` replacer: rewrite the first captured element. -/
def escapeReplacer : List Cap → List Cap
  | Cap.str v :: rest => Cap.str (decodeEscape v) :: rest
  | l => l

/-- The sequence loop of `extract`: walk the parts, threading the working
cursor.  A failing optional sub-rule `break`s (the remaining parts are
skipped and the partial capture is a success); a failing non-optional part
fails the whole sequence. -/
def seqLoop (recur : RuleName → Nat → Option Cap × Nat) (src : List Char) :
    List TokenPart → Nat → Option (List Cap × Nat)
  | [], i => some ([], i)
  | TokenPart.lit s :: rest, i =>
    if litMatches src i s then
      match seqLoop recur src rest (i + s.length) with
      | some (vs, j) => some (Cap.str s :: vs, j)
      | none => none
    else none
  | TokenPart.regex p :: rest, i =>
    match charAt src i with
    | some c =>
      if p c then
        match seqLoop recur src rest (i + 1) with
        | some (vs, j) => some (Cap.str [c] :: vs, j)
        | none => none
      else none
    | none => none
  | TokenPart.sub t opt flat :: rest, i =>
    match recur t i with
    | (some v, j) =>
      match seqLoop recur src rest j with
      | some (vs, k) => some ((if flat then v.vals else [v]) ++ vs, k)
      | none => none
    | (none, _) => if opt then some ([], i) else none

/-- The `$or` loop of `extract`: alternatives are tried in order on the same
state; the first success wins. -/
def orLoop (recur : RuleName → Nat → Option Cap × Nat) :
    List RuleName → Nat → Option Cap × Nat
  | [], i => (none, i)
  | a :: rest, i =>
    match recur a i with
    | (some v, j) => (some v, j)
    | (none, j) => orLoop recur rest j

/-- `extract(token, state)`: the generic rule interpreter.  The result pairs
the extracted token (or `none` on failure) with the state's index after the
call; on failure the index is returned untouched, as in the source, where
`state.index` is only assigned on the success path. -/
def extract : Nat → RuleName → List Char → Nat → Option Cap × Nat
  | 0, _, _, i => (none, i)
  | fuel + 1, name, src, i =>
    match TOKENS name with
    | Rule.alt alts => orLoop (fun t k => extract fuel t src k) alts i
    | Rule.seq parts hasRep =>
      match seqLoop (fun t k => extract fuel t src k) src parts i with
      | none => (none, i)
      | some (vals, j) =>
        let sv := sanitize vals
        (some (Cap.tok (tokenNameOf name) (if hasRep then escapeReplacer sv else sv)), j)

/-- The single error kind of the parser.  The source throws
`Error` with the message
`Unexpected token C, at char N (line: P)`; the character, offset and
preview are modelled structurally.  `typeError` stands for the TypeErrors
the assembler can raise when dereferencing a missing capture. -/
inductive JsError where
  | syntaxError (unexpected : String) (offset : Nat) (preview : String)
  | typeError
deriving DecidableEq, Repr

/-- The stuck-cursor error of `lex`: offending character `charAt(lastIndex)`,
the offset, and `substr(index, 25).split(newline)[0]`. -/
def stuckError (src : List Char) (i : Nat) : JsError :=
  .syntaxError (String.mk ((src.drop i).take 1)) i
    (String.mk (((src.drop i).take 25).takeWhile (fun c => !(c = '\n'))))

/-- One iteration of the `lex` while-loop: try all three `MAIN_TOKENS` in
order on the shared state, collecting every successful extraction. -/
def lexStep (fuel : Nat) (src : List Char) (i : Nat) : List Cap × Nat :=
  let r1 := extract fuel .Whitespace src i
  let r2 := extract fuel .Comment src r1.2
  let r3 := extract fuel .keyedEntry src r2.2
  ((r1.1.toList ++ r2.1.toList ++ r3.1.toList), r3.2)

/-- The `lex` while-loop: iterate `lexStep` until the end of the source,
raising the stuck-cursor error when an iteration does not advance.  The
fuel only bounds the number of iterations (each real iteration advances the
cursor, so `parse`'s budget is never exhausted). -/
def lexAll : Nat → List Char → Nat → List Cap × Option JsError
  | 0, src, i => ([], if i < src.length then some (stuckError src i) else none)
  | fuel + 1, src, i =>
    if i < src.length then
      match lexStep (fuel + 1) src i with
      | (caps, j) =>
        if j = i then (caps, some (stuckError src i))
        else
          match lexAll fuel src j with
          | (caps2, err) => (caps ++ caps2, err)
    else ([], none)

/-- A value of the output document: a plain string, or a
`{description, value}` record in description-extraction mode. -/
inductive EntryVal where
  | plain (value : String)
  | described (description : Option String) (value : String)
deriving DecidableEq, Repr

/-- JS indexing `l[n]` (undefined modelled as `none`). -/
def jsAt (l : List Cap) (n : Nat) : Option Cap := (l.drop n).head?

/-- JS `String.prototype.trim`. -/
def trimL (l : List Char) : List Char :=
  ((l.dropWhile isSpaceChar).reverse.dropWhile isSpaceChar).reverse

/-- `parseString(val)`: dispatch on the matched String alternative; a
non-unquoted capture without exactly 3 elements falls back to the empty
string.  The `typeError` branches mark places where the source would
dereference or return a non-string capture (none is reachable through the
grammar). -/
def parseString (val : Cap) : Except JsError (List Char) :=
  if val.tokName = some RuleName.UnquotedString then
    match jsAt val.vals 0 with
    | some (Cap.str s) => .ok s
    | _ => .error .typeError
  else if !(val.vals.length = 3) then .ok []
  else
    match jsAt val.vals 1 with
    | some c1 =>
      match jsAt c1.vals 0 with
      | some (Cap.str s) => .ok s
      | _ => .error .typeError
    | none => .error .typeError

/-- JS `map[key] = v` on a plain object: overwrite in place when the key is
present, append otherwise. -/
def setKey (m : List (String × EntryVal)) (k : String) (v : EntryVal) :
    List (String × EntryVal) :=
  if m.any (fun p => p.1 = k) then
    m.map (fun p => if p.1 = k then (k, v) else p)
  else m ++ [(k, v)]

/-- The assembler loop of `parse`: fold the token stream, maintaining the
`lastDescription` buffer.  A `Comment` token's text is
`entry.value[1].value[0].trim()`; when `value[1]` is absent (a bare `#`)
the source throws a TypeError. -/
def assembleLoop (xd : Bool) :
    List Cap → List (String × EntryVal) → List Char →
    Except JsError (List (String × EntryVal))
  | [], m, _ => .ok m
  | entry :: rest, m, lastDescription =>
    if entry.tokName = some RuleName.Whitespace then
      assembleLoop xd rest m lastDescription
    else
      match entry.tokName with
      | some RuleName.Comment =>
        (match jsAt entry.vals 1 with
         | some c1 =>
           match jsAt c1.vals 0 with
           | some (Cap.str inner) =>
             assembleLoop xd rest m
               ((if !(lastDescription = []) then lastDescription ++ ['\n']
                 else lastDescription) ++ trimL inner)
           | _ => .error .typeError
         | none => .error .typeError)
      | some RuleName.keyedEntry =>
        (match jsAt entry.vals 0 with
         | some k0 =>
           match jsAt k0.vals 0 with
           | some (Cap.str key) =>
             (match
                (match jsAt entry.vals 2 with
                 | none => Except.ok ([] : List Char)
                 | some sv => parseString sv) with
              | .ok v =>
                let val :=
                  if xd then
                    EntryVal.described
                      (if !(lastDescription = []) then some (String.mk lastDescription)
                       else none)
                      (String.mk v)
                  else EntryVal.plain (String.mk v)
                assembleLoop xd rest (setKey m (String.mk key) val) []
              | .error e => .error e)
           | _ => .error .typeError
         | none => .error .typeError)
      | _ => assembleLoop xd rest m lastDescription

/-- The fuel budget used by `parse`: ample for any input (rule recursion
depth is bounded by the remaining input plus a small constant). -/
def parseFuel (src : List Char) : Nat := src.length + 16

/-- `parse(source, {extractDescriptions})`: lex the whole input, then fold
the assembler over the token stream.  Tokens are processed in the order the
generator yields them, so an assembler TypeError on an already-yielded token
preempts a later lexer error. -/
def parse (source : String) (extractDescriptions : Bool := false) :
    Except JsError (List (String × EntryVal)) :=
  let src := source.toList
  match lexAll (parseFuel src) src 0 with
  | (caps, lexErr) =>
    match assembleLoop extractDescriptions caps [] [] with
    | .error e => .error e
    | .ok m =>
      match lexErr with
      | some e => .error e
      | none => .ok m

/-- One lowercase hexadecimal digit. -/
def hexDigit (k : Nat) : Char :=
  if k < 10 then Char.ofNat (48 + k) else Char.ofNat (87 + k)

/-- Four lowercase hexadecimal digits, as in the `\u00XX` escapes of
`JSON.stringify`. -/
def hex4 (n : Nat) : List Char :=
  [hexDigit (n / 4096 % 16), hexDigit (n / 256 % 16),
   hexDigit (n / 16 % 16), hexDigit (n % 16)]

/-- The per-character escaping of `JSON.stringify` on strings. -/
def escJsonChar (c : Char) : List Char :=
  if c = '"' then ['\\', '"']
  else if c = '\\' then ['\\', '\\']
  else if c = Char.ofNat 8 then ['\\', 'b']
  else if c = '\t' then ['\\', 't']
  else if c = '\n' then ['\\', 'n']
  else if c = Char.ofNat 12 then ['\\', 'f']
  else if c = '\r' then ['\\', 'r']
  else if c.toNat < 32 then '\\' :: 'u' :: hex4 c.toNat
  else [c]

/-- `JSON.stringify` on a string, over character lists. -/
def jsonQuoteL (v : List Char) : List Char :=
  '"' :: (v.map escJsonChar).flatten ++ ['"']

/-- `serializeString(val)` over character lists: single-quote verbatim when
the value contains a newline and no apostrophe, otherwise
`JSON.stringify`. -/
def serializeStringL (v : List Char) : List Char :=
  if v.contains '\n' && !(v.contains apos) then apos :: v ++ [apos]
  else jsonQuoteL v

/-- `serializeString(val)`. -/
def serializeString (val : String) : String :=
  String.mk (serializeStringL val.toList)

/-- JS `description.split(newline)`. -/
def splitNl (l : List Char) : List (List Char) :=
  match l with
  | [] => [[]]
  | c :: rest =>
    match splitNl rest with
    | r :: rs => if c = '\n' then [] :: r :: rs else (c :: r) :: rs
    | [] => [[c]]

/-- The description and value an entry contributes in `serialize`
(`typeof entry === 'object'`). -/
def entryDescription : EntryVal → Option String
  | .plain _ => none
  | .described d _ => d

/-- The value field of an entry. -/
def entryValue : EntryVal → String
  | .plain v => v
  | .described _ v => v

/-- One serialized entry: `# line` rows for a truthy description, then
`KEY=` and the quoted value. -/
def serializeEntryL (key : String) (e : EntryVal) : List Char :=
  (match entryDescription e with
   | some d =>
     if !(d = "") then
       ((splitNl d.toList).map (fun line => '#' :: ' ' :: line ++ ['\n'])).flatten
     else []
   | none => []) ++ key.toList ++ '=' :: serializeStringL (entryValue e).toList

/-- JS `Array.prototype.join` with a newline separator. -/
def joinNl : List (List Char) → List Char
  | [] => []
  | [x] => x
  | x :: xs => x ++ '\n' :: joinNl xs

/-- `serialize(obj)`. -/
def serialize (obj : List (String × EntryVal)) : String :=
  String.mk (joinNl (obj.map (fun p => serializeEntryL p.1 p.2)))

/-! ### Proof-side helper definitions -/

/-- A character list matching the `Key` grammar `[A-Za-z_][A-Za-z0-9_]*`. -/
def validKeyL : List Char → Bool
  | [] => false
  | c :: rest => isAlphaU c && rest.all isAlphaNumU

/-- A string matching the `Key` grammar. -/
def validKeyStr (s : String) : Bool := validKeyL s.toList

/-- The control characters with named JSON escapes:
backspace, tab, newline, form feed, carriage return. -/
def namedCtl : List Char := [Char.ofNat 8, '\t', '\n', Char.ofNat 12, '\r']

/-- A character whose `JSON.stringify` form the grammar can re-parse: not a
control character, or one of the five named-escape controls. -/
def jsonAtomic (c : Char) : Bool := !(decide (c.toNat < 32)) || decide (c ∈ namedCtl)

/-- The escaped body `JSON.stringify` emits for a value. -/
def escL (v : List Char) : List Char := (v.map escJsonChar).flatten

/-- A value whose serialized form re-parses to itself: the single-quote
branch applies, or every character is `jsonAtomic`. -/
def vOK (v : List Char) : Bool :=
  (v.contains '\n' && !(v.contains apos)) || v.all jsonAtomic

/-! ### Basic facts about the source-position primitives -/

theorem drop_add (src : List Char) (i n : Nat) :
    src.drop (i + n) = (src.drop i).drop n := by
  rw [List.drop_drop, Nat.add_comm]

theorem drop_cons_succ {src : List Char} {i : Nat} {c : Char} {r : List Char}
    (h : src.drop i = c :: r) : src.drop (i + 1) = r := by
  rw [drop_add, h, List.drop_one, List.tail_cons]

theorem drop_append_eq {src a b : List Char} {i : Nat}
    (h : src.drop i = a ++ b) : src.drop (i + a.length) = b := by
  rw [drop_add, h, List.drop_left]

theorem charAt_of_drop_cons {src : List Char} {i : Nat} {c : Char} {r : List Char}
    (h : src.drop i = c :: r) : charAt src i = some c := by
  simp [charAt, h]

theorem charAt_of_drop_nil {src : List Char} {i : Nat}
    (h : src.drop i = []) : charAt src i = none := by
  simp [charAt, h]

theorem litMatches_of_drop {src s r : List Char} {i : Nat}
    (h : src.drop i = s ++ r) : litMatches src i s = true := by
  simp [litMatches, h, List.take_left]

theorem litMatches_one_false {src r : List Char} {i : Nat} {c d : Char}
    (h : src.drop i = c :: r) (hc : ¬ c = d) : litMatches src i [d] = false := by
  simp [litMatches, h, List.take_succ_cons]
  exact fun hh => absurd hh hc

theorem litMatches_nil_false {src : List Char} {i : Nat} {s : List Char}
    (h : src.drop i = []) (hs : s ≠ []) : litMatches src i s = false := by
  simp [litMatches, h]
  intro hh
  exact hs hh

/-! ### Small evaluation facts about `sanitize` -/

theorem sanitize_single_str (a : List Char) : sanitize [Cap.str a] = [Cap.str a] := rfl

theorem sanitize_two_str (a b : List Char) :
    sanitize [Cap.str a, Cap.str b] = [Cap.str (a ++ b)] := rfl

/-! ### Behaviour of `extract` on single-character-class rules -/

theorem extract_regex1 {name : RuleName} {p : Char → Bool}
    (hn : TOKENS name = Rule.seq [TokenPart.regex p] false)
    (fuel : Nat) (src : List Char) (i : Nat) :
    extract (fuel + 1) name src i =
      match charAt src i with
      | some c =>
        if p c then (some (Cap.tok (tokenNameOf name) [Cap.str [c]]), i + 1)
        else (none, i)
      | none => (none, i) := by
  show (match TOKENS name with
    | Rule.alt alts => orLoop (fun t k => extract fuel t src k) alts i
    | Rule.seq parts hasRep =>
      match seqLoop (fun t k => extract fuel t src k) src parts i with
      | none => (none, i)
      | some (vals, j) =>
        let sv := sanitize vals
        (some (Cap.tok (tokenNameOf name) (if hasRep then escapeReplacer sv else sv)), j)) = _
  rw [hn]
  cases hcc : charAt src i with
  | none => simp [seqLoop, hcc]
  | some c =>
    by_cases hp : p c <;> simp [seqLoop, hcc, hp, sanitize]

theorem extract_regex1_of_char {name : RuleName} {p : Char → Bool}
    (hn : TOKENS name = Rule.seq [TokenPart.regex p] false)
    {src r : List Char} {i : Nat} {c : Char} (h : src.drop i = c :: r)
    (hp : p c = true) (fuel : Nat) :
    extract (fuel + 1) name src i =
      (some (Cap.tok (tokenNameOf name) [Cap.str [c]]), i + 1) := by
  rw [extract_regex1 hn, charAt_of_drop_cons h]
  simp [hp]

theorem extract_succ (fuel : Nat) (name : RuleName) (src : List Char) (i : Nat) :
    extract (fuel + 1) name src i =
      match TOKENS name with
      | Rule.alt alts => orLoop (fun t k => extract fuel t src k) alts i
      | Rule.seq parts hasRep =>
        match seqLoop (fun t k => extract fuel t src k) src parts i with
        | none => (none, i)
        | some (vals, j) =>
          (some (Cap.tok (tokenNameOf name)
            (if hasRep then escapeReplacer (sanitize vals) else sanitize vals)), j) := by
  rfl

theorem extract_regex1_fail {name : RuleName} {p : Char → Bool}
    (hn : TOKENS name = Rule.seq [TokenPart.regex p] false)
    {src : List Char} {i : Nat}
    (h : ∀ c, charAt src i = some c → p c = false) :
    ∀ fuel, extract fuel name src i = (none, i)
  | 0 => rfl
  | fuel + 1 => by
    rw [extract_regex1 hn]
    cases hcc : charAt src i with
    | none => simp
    | some c => simp [h c hcc]

/-! ### The `Key` grammar -/

theorem drop_cons_append {src t x : List Char} {i : Nat} {c : Char}
    (h : src.drop i = (c :: t) ++ x) : src.drop (i + 1) = t ++ x :=
  drop_cons_succ (by simpa using h)

theorem tok_Whitespace :
    TOKENS RuleName.Whitespace =
      Rule.seq [TokenPart.regex isSpaceChar,
        TokenPart.sub RuleName.Whitespace true true] false := rfl

theorem tok_Comment :
    TOKENS RuleName.Comment =
      Rule.seq [TokenPart.lit ['#'],
        TokenPart.sub RuleName.CommentChars true false] false := rfl

theorem tok_AlphaUChar :
    TOKENS RuleName.AlphaUChar = Rule.seq [TokenPart.regex isAlphaU] false := rfl

theorem tok_AlphaNumUChar :
    TOKENS RuleName.AlphaNumUChar = Rule.seq [TokenPart.regex isAlphaNumU] false := rfl

theorem tok_CommentChar :
    TOKENS RuleName.CommentChar = Rule.seq [TokenPart.regex isCommentChar] false := rfl

theorem tok_SafeChar :
    TOKENS RuleName.SafeChar = Rule.seq [TokenPart.regex isSafeChar] false := rfl

theorem tok_UnescQChar :
    TOKENS RuleName.UnescapedQuotedStringChar =
      Rule.seq [TokenPart.regex isUnescQChar] false := rfl

theorem tok_UnescSQChar :
    TOKENS RuleName.UnescapedSingleQuotedStringChar =
      Rule.seq [TokenPart.regex isUnescSQChar] false := rfl

theorem anuchars_fail {src r : List Char} {j : Nat} {b : Char}
    (h : src.drop j = b :: r) (hb : isAlphaNumU b = false) :
    ∀ fuel, extract fuel RuleName.AlphaNumUChars src j = (none, j)
  | 0 => rfl
  | fuel + 1 => by
    rw [extract_succ]
    have h1 : extract fuel RuleName.AlphaNumUChar src j = (none, j) :=
      extract_regex1_fail tok_AlphaNumUChar
        (fun c hc => by
          rw [charAt_of_drop_cons h] at hc
          cases hc
          exact hb) fuel
    simp [TOKENS, seqLoop, h1]

theorem anuchars_complete {src : List Char} {b : Char} {r : List Char} :
    ∀ (t : List Char) (fuel i : Nat),
    t.all isAlphaNumU = true →
    src.drop i = t ++ b :: r → isAlphaNumU b = false →
    t ≠ [] → t.length ≤ fuel →
    extract (fuel + 1) RuleName.AlphaNumUChars src i =
      (some (Cap.tok (some RuleName.AlphaNumUChars) [Cap.str t]), i + t.length) := by
  intro t
  induction t with
  | nil => intro _ _ _ _ _ hne _; exact absurd rfl hne
  | cons c t ih =>
    intro fuel i hall hdrop hb _ hfuel
    obtain ⟨f, rfl⟩ : ∃ f, fuel = f + 1 := ⟨fuel - 1, by simp at hfuel; omega⟩
    rw [List.all_cons, Bool.and_eq_true] at hall
    have hdrop1 : src.drop (i + 1) = t ++ b :: r := drop_cons_append hdrop
    have h1 : extract (f + 1) RuleName.AlphaNumUChar src i =
        (some (Cap.tok (some RuleName.AlphaNumUChar) [Cap.str [c]]), i + 1) := by
      have := extract_regex1_of_char tok_AlphaNumUChar (by simpa using hdrop) hall.1 f
      simpa [tokenNameOf] using this
    rw [extract_succ]
    cases t with
    | nil =>
      have h2 : extract (f + 1) RuleName.AlphaNumUChars src (i + 1) = (none, i + 1) :=
        anuchars_fail hdrop1 hb (f + 1)
      simp [TOKENS, seqLoop, h1, h2, Cap.vals, tokenNameOf, sanitize_single_str]
    | cons d t2 =>
      have h2 : extract (f + 1) RuleName.AlphaNumUChars src (i + 1) =
          (some (Cap.tok (some RuleName.AlphaNumUChars) [Cap.str (d :: t2)]),
            (i + 1) + (d :: t2).length) :=
        ih (f) (i + 1) hall.2 hdrop1 hb (by simp) (by simp at hfuel ⊢; omega)
      have hidx : i + (c :: d :: t2).length = (i + 1) + (d :: t2).length := by
        simp; omega
      simp [TOKENS, seqLoop, h1, h2, Cap.vals, tokenNameOf, sanitize_two_str, hidx]
      omega

theorem key_complete {src r : List Char} {b : Char} {k : List Char} {i fuel : Nat}
    (hk : validKeyL k = true) (hdrop : src.drop i = k ++ b :: r)
    (hb : isAlphaNumU b = false) (hfuel : k.length + 1 ≤ fuel) :
    extract (fuel + 1) RuleName.Key src i =
      (some (Cap.tok (some RuleName.Key) [Cap.str k]), i + k.length) := by
  cases k with
  | nil => simp [validKeyL] at hk
  | cons c t =>
    obtain ⟨f, rfl⟩ : ∃ f, fuel = f + 1 := ⟨fuel - 1, by simp at hfuel; omega⟩
    rw [show validKeyL (c :: t) = (isAlphaU c && t.all isAlphaNumU) from rfl,
      Bool.and_eq_true] at hk
    have hdrop1 : src.drop (i + 1) = t ++ b :: r := drop_cons_append hdrop
    have h1 : extract (f + 1) RuleName.AlphaUChar src i =
        (some (Cap.tok (some RuleName.AlphaUChar) [Cap.str [c]]), i + 1) := by
      have := extract_regex1_of_char tok_AlphaUChar (by simpa using hdrop) hk.1 f
      simpa [tokenNameOf] using this
    rw [extract_succ]
    cases t with
    | nil =>
      have h2 : extract (f + 1) RuleName.AlphaNumUChars src (i + 1) = (none, i + 1) :=
        anuchars_fail hdrop1 hb (f + 1)
      simp [TOKENS, seqLoop, h1, h2, Cap.vals, tokenNameOf, sanitize_single_str]
    | cons d t2 =>
      have h2 : extract (f + 1) RuleName.AlphaNumUChars src (i + 1) =
          (some (Cap.tok (some RuleName.AlphaNumUChars) [Cap.str (d :: t2)]),
            (i + 1) + (d :: t2).length) :=
        anuchars_complete (d :: t2) f (i + 1) hk.2 hdrop1 hb (by simp)
          (by simp at hfuel ⊢; omega)
      have hidx : i + (c :: d :: t2).length = (i + 1) + (d :: t2).length := by
        simp; omega
      simp [TOKENS, seqLoop, h1, h2, Cap.vals, tokenNameOf, sanitize_two_str, hidx]
      omega

/-! ### The escape alphabet and `EscapedChars` -/

theorem escJsonChar_plain {c : Char} (hctl : ¬ c.toNat < 32)
    (hq : ¬ c = '"') (hbs : ¬ c = '\\') : escJsonChar c = [c] := by
  have h8 : ¬ c = Char.ofNat 8 := fun h => by subst h; simp at hctl
  have h9 : ¬ c = '\t' := fun h => by subst h; simp at hctl
  have h10 : ¬ c = '\n' := fun h => by subst h; simp at hctl
  have h12 : ¬ c = Char.ofNat 12 := fun h => by subst h; simp at hctl
  have h13 : ¬ c = '\r' := fun h => by subst h; simp at hctl
  simp [escJsonChar, hq, hbs, h8, h9, h10, h12, h13, hctl]

theorem escapedChars_success {src r : List Char} {e : Char} {i f : Nat}
    (hdrop : src.drop i = '\\' :: e :: r) (he : isEscLetter e = true) :
    extract (f + 1) RuleName.EscapedChars src i =
      (some (Cap.tok none [Cap.str (decodeEscape ['\\', e])]), i + 2) := by
  have hlit : litMatches src i ['\\'] = true :=
    litMatches_of_drop (r := e :: r) (by simpa using hdrop)
  have hch : charAt src (i + 1) = some e :=
    charAt_of_drop_cons (drop_cons_succ hdrop)
  rw [extract_succ]
  simp [TOKENS, seqLoop, hlit, hch, he, tokenNameOf, escapeReplacer,
    sanitize_two_str]

theorem escapedChars_fail_cons {src r : List Char} {c : Char} {i : Nat}
    (hdrop : src.drop i = c :: r) (hc : ¬ c = '\\') :
    ∀ f, extract f RuleName.EscapedChars src i = (none, i)
  | 0 => rfl
  | f + 1 => by
    rw [extract_succ]
    simp [TOKENS, seqLoop, litMatches_one_false hdrop hc]

theorem escapedChars_fail_nil {src : List Char} {i : Nat}
    (hdrop : src.drop i = []) :
    ∀ f, extract f RuleName.EscapedChars src i = (none, i)
  | 0 => rfl
  | f + 1 => by
    have h := litMatches_nil_false (s := ['\\']) hdrop (by simp)
    rw [extract_succ]
    simp [TOKENS, seqLoop, h]

theorem escapedChars_fail_badletter {src r : List Char} {e : Char} {i : Nat}
    (hdrop : src.drop i = '\\' :: e :: r) (he : isEscLetter e = false) :
    ∀ f, extract f RuleName.EscapedChars src i = (none, i)
  | 0 => rfl
  | f + 1 => by
    have hlit : litMatches src i ['\\'] = true :=
      litMatches_of_drop (r := e :: r) (by simpa using hdrop)
    have hch : charAt src (i + 1) = some e :=
      charAt_of_drop_cons (drop_cons_succ hdrop)
    rw [extract_succ]
    simp [TOKENS, seqLoop, hlit, hch, he]

/-! ### `QuotedStringChar` and `QuotedStringChars` -/

theorem qschar_fail_at_quote {src r : List Char} {i : Nat}
    (hdrop : src.drop i = '"' :: r) :
    ∀ f, extract f RuleName.QuotedStringChar src i = (none, i)
  | 0 => rfl
  | f + 1 => by
    have h1 : extract f RuleName.UnescapedQuotedStringChar src i = (none, i) :=
      extract_regex1_fail tok_UnescQChar
        (fun c hc => by
          rw [charAt_of_drop_cons hdrop] at hc
          cases hc
          simp [isUnescQChar]) f
    have h2 : extract f RuleName.EscapedChars src i = (none, i) :=
      escapedChars_fail_cons hdrop (by simp) f
    rw [extract_succ]
    simp [TOKENS, orLoop, h1, h2]

theorem qsc_fail_at_quote {src r : List Char} {i : Nat}
    (hdrop : src.drop i = '"' :: r) :
    ∀ f, extract f RuleName.QuotedStringChars src i = (none, i)
  | 0 => rfl
  | f + 1 => by
    rw [extract_succ]
    simp [TOKENS, seqLoop, qschar_fail_at_quote hdrop f]

theorem qschar_step {src r : List Char} {c : Char} {i : Nat} (f : Nat)
    (hdrop : src.drop i = escJsonChar c ++ r) (hc : jsonAtomic c = true) :
    ∃ nm, extract (f + 2) RuleName.QuotedStringChar src i =
      (some (Cap.tok nm [Cap.str [c]]), i + (escJsonChar c).length) := by
  by_cases hq : c = '"'
  · subst hq
    rw [show escJsonChar '"' = ['\\', '"'] from by decide] at hdrop ⊢
    have h1 : extract (f + 1) RuleName.UnescapedQuotedStringChar src i = (none, i) :=
      extract_regex1_fail tok_UnescQChar
        (fun c hc => by
          rw [charAt_of_drop_cons hdrop] at hc
          cases hc
          simp [isUnescQChar]) (f + 1)
    have h2 := escapedChars_success (f := f) hdrop (by decide)
    refine ⟨none, ?_⟩
    rw [extract_succ]
    simp [TOKENS, orLoop, h1, h2]
    decide
  · by_cases hbs : c = '\\'
    · subst hbs
      rw [show escJsonChar '\\' = ['\\', '\\'] from by decide] at hdrop ⊢
      have h1 : extract (f + 1) RuleName.UnescapedQuotedStringChar src i = (none, i) :=
        extract_regex1_fail tok_UnescQChar
          (fun c hc => by
            rw [charAt_of_drop_cons hdrop] at hc
            cases hc
            simp [isUnescQChar]) (f + 1)
      have h2 := escapedChars_success (f := f) hdrop (by decide)
      refine ⟨none, ?_⟩
      rw [extract_succ]
      simp [TOKENS, orLoop, h1, h2]
      decide
    · by_cases hctl : c.toNat < 32
      · have hmem : c ∈ namedCtl := by
          simp [jsonAtomic, hctl] at hc
          exact hc
        simp only [namedCtl, List.mem_cons, List.not_mem_nil, or_false] at hmem
        rcases hmem with rfl | rfl | rfl | rfl | hmem
        · rw [show escJsonChar (Char.ofNat 8) = ['\\', 'b'] from by decide] at hdrop ⊢
          have h1 : extract (f + 1) RuleName.UnescapedQuotedStringChar src i = (none, i) :=
            extract_regex1_fail tok_UnescQChar
              (fun c hc => by
                rw [charAt_of_drop_cons hdrop] at hc
                cases hc
                simp [isUnescQChar]) (f + 1)
          have h2 := escapedChars_success (f := f) hdrop (by decide)
          refine ⟨none, ?_⟩
          rw [extract_succ]
          simp [TOKENS, orLoop, h1, h2]
          decide
        · rw [show escJsonChar '\t' = ['\\', 't'] from by decide] at hdrop ⊢
          have h1 : extract (f + 1) RuleName.UnescapedQuotedStringChar src i = (none, i) :=
            extract_regex1_fail tok_UnescQChar
              (fun c hc => by
                rw [charAt_of_drop_cons hdrop] at hc
                cases hc
                simp [isUnescQChar]) (f + 1)
          have h2 := escapedChars_success (f := f) hdrop (by decide)
          refine ⟨none, ?_⟩
          rw [extract_succ]
          simp [TOKENS, orLoop, h1, h2]
          decide
        · rw [show escJsonChar '\n' = ['\\', 'n'] from by decide] at hdrop ⊢
          have h1 : extract (f + 1) RuleName.UnescapedQuotedStringChar src i = (none, i) :=
            extract_regex1_fail tok_UnescQChar
              (fun c hc => by
                rw [charAt_of_drop_cons hdrop] at hc
                cases hc
                simp [isUnescQChar]) (f + 1)
          have h2 := escapedChars_success (f := f) hdrop (by decide)
          refine ⟨none, ?_⟩
          rw [extract_succ]
          simp [TOKENS, orLoop, h1, h2]
          decide
        · rw [show escJsonChar (Char.ofNat 12) = ['\\', 'f'] from by decide] at hdrop ⊢
          have h1 : extract (f + 1) RuleName.UnescapedQuotedStringChar src i = (none, i) :=
            extract_regex1_fail tok_UnescQChar
              (fun c hc => by
                rw [charAt_of_drop_cons hdrop] at hc
                cases hc
                simp [isUnescQChar]) (f + 1)
          have h2 := escapedChars_success (f := f) hdrop (by decide)
          refine ⟨none, ?_⟩
          rw [extract_succ]
          simp [TOKENS, orLoop, h1, h2]
          decide
        · cases hmem
          rw [show escJsonChar '\r' = ['\\', 'r'] from by decide] at hdrop ⊢
          have h1 : extract (f + 1) RuleName.UnescapedQuotedStringChar src i = (none, i) :=
            extract_regex1_fail tok_UnescQChar
              (fun c hc => by
                rw [charAt_of_drop_cons hdrop] at hc
                cases hc
                simp [isUnescQChar]) (f + 1)
          have h2 := escapedChars_success (f := f) hdrop (by decide)
          refine ⟨none, ?_⟩
          rw [extract_succ]
          simp [TOKENS, orLoop, h1, h2]
          decide
      · rw [escJsonChar_plain hctl hq hbs] at hdrop ⊢
        have h1 : extract (f + 1) RuleName.UnescapedQuotedStringChar src i =
            (some (Cap.tok (some RuleName.UnescapedQuotedStringChar) [Cap.str [c]]),
              i + 1) := by
          have := extract_regex1_of_char tok_UnescQChar hdrop
            (by simp [isUnescQChar, hq, hbs]) f
          simpa [tokenNameOf] using this
        refine ⟨some RuleName.UnescapedQuotedStringChar, ?_⟩
        rw [extract_succ]
        simp [TOKENS, orLoop, h1]

theorem escL_cons (c : Char) (v : List Char) :
    escL (c :: v) = escJsonChar c ++ escL v := by simp [escL]

theorem escJsonChar_head_ne_quote (c : Char) :
    ∃ h t, escJsonChar c = h :: t ∧ ¬ h = '"' := by
  unfold escJsonChar
  split_ifs with h1 h2 h3 h4 h5 h6 h7 h8
  · exact ⟨'\\', _, rfl, by decide⟩
  · exact ⟨'\\', _, rfl, by decide⟩
  · exact ⟨'\\', _, rfl, by decide⟩
  · exact ⟨'\\', _, rfl, by decide⟩
  · exact ⟨'\\', _, rfl, by decide⟩
  · exact ⟨'\\', _, rfl, by decide⟩
  · exact ⟨'\\', _, rfl, by decide⟩
  · exact ⟨'\\', _, rfl, by decide⟩
  · exact ⟨c, [], rfl, h1⟩

theorem qsc_complete {src r : List Char} :
    ∀ (v : List Char) (fuel i : Nat),
    v.all jsonAtomic = true →
    src.drop i = escL v ++ '"' :: r →
    v ≠ [] → v.length + 2 ≤ fuel →
    extract (fuel + 1) RuleName.QuotedStringChars src i =
      (some (Cap.tok (some RuleName.QuotedStringChars) [Cap.str v]),
        i + (escL v).length) := by
  intro v
  induction v with
  | nil => intro _ _ _ _ hne _; exact absurd rfl hne
  | cons c v ih =>
    intro fuel i hall hdrop _ hfuel
    obtain ⟨f, rfl⟩ : ∃ f, fuel = f + 2 := ⟨fuel - 2, by simp at hfuel; omega⟩
    rw [List.all_cons, Bool.and_eq_true] at hall
    rw [escL_cons, List.append_assoc] at hdrop
    obtain ⟨nm, h1⟩ := qschar_step f hdrop hall.1
    have hdropj : src.drop (i + (escJsonChar c).length) = escL v ++ '"' :: r :=
      drop_append_eq hdrop
    rw [extract_succ]
    cases v with
    | nil =>
      have h2 : extract (f + 2) RuleName.QuotedStringChars src
          (i + (escJsonChar c).length) = (none, i + (escJsonChar c).length) :=
        qsc_fail_at_quote (by simpa [escL] using hdropj) (f + 2)
      simp [TOKENS, seqLoop, h1, h2, Cap.vals, tokenNameOf, sanitize_single_str,
        escL_cons, escL]
    | cons d v2 =>
      have h2 : extract (f + 2) RuleName.QuotedStringChars src
          (i + (escJsonChar c).length) =
          (some (Cap.tok (some RuleName.QuotedStringChars) [Cap.str (d :: v2)]),
            (i + (escJsonChar c).length) + (escL (d :: v2)).length) :=
        ih (f + 1) (i + (escJsonChar c).length) hall.2 hdropj (by simp)
          (by simp at hfuel ⊢; omega)
      have hidx : i + (escL (c :: d :: v2)).length =
          (i + (escJsonChar c).length) + (escL (d :: v2)).length := by
        rw [escL_cons]
        simp
        omega
      simp [TOKENS, seqLoop, h1, h2, Cap.vals, tokenNameOf, sanitize_two_str, hidx]

/-! ### Failure of the earlier `String` alternatives -/

theorem unquoted_fail {src r : List Char} {c : Char} {i : Nat}
    (hdrop : src.drop i = c :: r) (hc : isSafeChar c = false) :
    ∀ f, extract f RuleName.UnquotedString src i = (none, i)
  | 0 => rfl
  | f + 1 => by
    have h1 : extract f RuleName.SafeChar src i = (none, i) :=
      extract_regex1_fail tok_SafeChar
        (fun d hd => by
          rw [charAt_of_drop_cons hdrop] at hd
          cases hd
          exact hc) f
    rw [extract_succ]
    simp [TOKENS, seqLoop, h1]

theorem emptyString_fail_two {src r : List Char} {c1 c2 : Char} {i : Nat}
    (hdrop : src.drop i = c1 :: c2 :: r) (hc : ¬ (c1 = '"' ∧ c2 = '"')) :
    ∀ f, extract f RuleName.EmptyString src i = (none, i)
  | 0 => rfl
  | f + 1 => by
    have h : litMatches src i ['"', '"'] = false := by
      simp [litMatches, hdrop, List.take_succ_cons]
      intro e1 e2
      exact hc ⟨e1, e2⟩
    rw [extract_succ]
    simp [TOKENS, seqLoop, h]

theorem quotedString_fail {src r : List Char} {c : Char} {i : Nat}
    (hdrop : src.drop i = c :: r) (hc : ¬ c = '"') :
    ∀ f, extract f RuleName.QuotedString src i = (none, i)
  | 0 => rfl
  | f + 1 => by
    rw [extract_succ]
    simp [TOKENS, seqLoop, litMatches_one_false hdrop hc]

theorem emptyString_fail_one {src : List Char} {c : Char} {i : Nat}
    (hdrop : src.drop i = [c]) :
    ∀ f, extract f RuleName.EmptyString src i = (none, i)
  | 0 => rfl
  | f + 1 => by
    have h : litMatches src i ['"', '"'] = false := by
      simp [litMatches, hdrop]
    rw [extract_succ]
    simp [TOKENS, seqLoop, h]

/-! ### `QuotedString` and the `String` alternation, JSON branch -/

theorem quotedString_complete {src r : List Char} {v : List Char} {i fuel : Nat}
    (hall : v.all jsonAtomic = true)
    (hdrop : src.drop i = '"' :: (escL v ++ '"' :: r))
    (hne : v ≠ []) (hfuel : v.length + 3 ≤ fuel) :
    extract (fuel + 1) RuleName.QuotedString src i =
      (some (Cap.tok (some RuleName.QuotedString)
        [Cap.str ['"'],
         Cap.tok (some RuleName.QuotedStringChars) [Cap.str v],
         Cap.str ['"']]),
        i + 1 + (escL v).length + 1) := by
  obtain ⟨f, rfl⟩ : ∃ f, fuel = f + 3 := ⟨fuel - 3, by omega⟩
  have hlit1 : litMatches src i ['"'] = true :=
    litMatches_of_drop (r := escL v ++ '"' :: r) (by simpa using hdrop)
  have hdrop1 : src.drop (i + 1) = escL v ++ '"' :: r := drop_cons_succ hdrop
  have h2 : extract (f + 3) RuleName.QuotedStringChars src (i + 1) =
      (some (Cap.tok (some RuleName.QuotedStringChars) [Cap.str v]),
        (i + 1) + (escL v).length) :=
    qsc_complete v (f + 2) (i + 1) hall hdrop1 hne (by omega)
  have hdrop2 : src.drop (i + 1 + (escL v).length) = '"' :: r :=
    drop_append_eq hdrop1
  have hlit2 : litMatches src (i + 1 + (escL v).length) ['"'] = true :=
    litMatches_of_drop (r := r) (by simpa using hdrop2)
  rw [extract_succ]
  simp [TOKENS, seqLoop, hlit1, hlit2, h2, tokenNameOf, sanitize]

theorem string_complete_json {src r : List Char} {v : List Char} {i fuel : Nat}
    (hall : v.all jsonAtomic = true)
    (hdrop : src.drop i = '"' :: (escL v ++ '"' :: r))
    (hne : v ≠ []) (hfuel : v.length + 4 ≤ fuel) :
    extract (fuel + 1) RuleName.String src i =
      (some (Cap.tok (some RuleName.QuotedString)
        [Cap.str ['"'],
         Cap.tok (some RuleName.QuotedStringChars) [Cap.str v],
         Cap.str ['"']]),
        i + 1 + (escL v).length + 1) := by
  obtain ⟨f, rfl⟩ : ∃ f, fuel = f + 4 := ⟨fuel - 4, by omega⟩
  have hno1 : extract (f + 4) RuleName.UnquotedString src i = (none, i) :=
    unquoted_fail (by simpa using hdrop) (by simp [isSafeChar]) (f + 4)
  obtain ⟨h0, t0, ht0, hh0⟩ := escJsonChar_head_ne_quote (v.headI)
  have hesc : escL v = h0 :: (t0 ++ escL v.tail) := by
    cases v with
    | nil => exact absurd rfl hne
    | cons c v2 => simp [escL_cons, List.headI] at ht0 ⊢; rw [ht0]; simp
  have hdropq : src.drop i = '"' :: h0 :: (t0 ++ escL v.tail ++ '"' :: r) := by
    rw [hdrop, hesc]
    simp
  have hno2 : extract (f + 4) RuleName.EmptyString src i = (none, i) :=
    emptyString_fail_two hdropq (fun h => hh0 h.2) (f + 4)
  have h3 : extract (f + 4) RuleName.QuotedString src i =
      (some (Cap.tok (some RuleName.QuotedString)
        [Cap.str ['"'],
         Cap.tok (some RuleName.QuotedStringChars) [Cap.str v],
         Cap.str ['"']]),
        i + 1 + (escL v).length + 1) :=
    quotedString_complete hall hdrop hne (by omega)
  rw [extract_succ]
  simp [TOKENS, orLoop, hno1, hno2, h3]

theorem string_complete_empty {src r : List Char} {i fuel : Nat}
    (hdrop : src.drop i = '"' :: '"' :: r) :
    extract (fuel + 2) RuleName.String src i =
      (some (Cap.tok (some RuleName.EmptyString) [Cap.str ['"', '"']]), i + 2) := by
  have hno1 : extract (fuel + 1) RuleName.UnquotedString src i = (none, i) :=
    unquoted_fail hdrop (by simp [isSafeChar]) (fuel + 1)
  have h2 : extract (fuel + 1) RuleName.EmptyString src i =
      (some (Cap.tok (some RuleName.EmptyString) [Cap.str ['"', '"']]), i + 2) := by
    have hlit : litMatches src i ['"', '"'] = true :=
      litMatches_of_drop (r := r) (by simpa using hdrop)
    rw [extract_succ]
    simp [TOKENS, seqLoop, hlit, tokenNameOf, sanitize]
  rw [extract_succ]
  simp [TOKENS, orLoop, hno1, h2]

/-! ### The single-quoted branch -/

theorem sqchar_fail_at_apos {src r : List Char} {i : Nat}
    (hdrop : src.drop i = apos :: r) :
    ∀ f, extract f RuleName.SingleQuotedStringChar src i = (none, i)
  | 0 => rfl
  | f + 1 => by
    have h1 : extract f RuleName.UnescapedSingleQuotedStringChar src i = (none, i) :=
      extract_regex1_fail tok_UnescSQChar
        (fun c hc => by
          rw [charAt_of_drop_cons hdrop] at hc
          cases hc
          simp [isUnescSQChar]) f
    rw [extract_succ]
    simp [TOKENS, orLoop, h1]

theorem sqsc_fail_at_apos {src r : List Char} {i : Nat}
    (hdrop : src.drop i = apos :: r) :
    ∀ f, extract f RuleName.SingleQuotedStringChars src i = (none, i)
  | 0 => rfl
  | f + 1 => by
    rw [extract_succ]
    simp [TOKENS, seqLoop, sqchar_fail_at_apos hdrop f]

theorem sqchar_step {src r : List Char} {c : Char} {i : Nat} (f : Nat)
    (hdrop : src.drop i = c :: r) (hc : isUnescSQChar c = true) :
    extract (f + 2) RuleName.SingleQuotedStringChar src i =
      (some (Cap.tok (some RuleName.UnescapedSingleQuotedStringChar) [Cap.str [c]]),
        i + 1) := by
  have h1 : extract (f + 1) RuleName.UnescapedSingleQuotedStringChar src i =
      (some (Cap.tok (some RuleName.UnescapedSingleQuotedStringChar) [Cap.str [c]]),
        i + 1) := by
    have := extract_regex1_of_char tok_UnescSQChar hdrop hc f
    simpa [tokenNameOf] using this
  rw [extract_succ]
  simp [TOKENS, orLoop, h1]

theorem sqsc_complete {src r : List Char} :
    ∀ (v : List Char) (fuel i : Nat),
    v.all isUnescSQChar = true →
    src.drop i = v ++ apos :: r →
    v ≠ [] → v.length + 2 ≤ fuel →
    extract (fuel + 1) RuleName.SingleQuotedStringChars src i =
      (some (Cap.tok (some RuleName.SingleQuotedStringChars) [Cap.str v]),
        i + v.length) := by
  intro v
  induction v with
  | nil => intro _ _ _ _ hne _; exact absurd rfl hne
  | cons c v ih =>
    intro fuel i hall hdrop _ hfuel
    obtain ⟨f, rfl⟩ : ∃ f, fuel = f + 2 := ⟨fuel - 2, by simp at hfuel; omega⟩
    rw [List.all_cons, Bool.and_eq_true] at hall
    have h1 := sqchar_step f (by simpa using hdrop) hall.1
    have hdropj : src.drop (i + 1) = v ++ apos :: r := drop_cons_append hdrop
    rw [extract_succ]
    cases v with
    | nil =>
      have h2 : extract (f + 2) RuleName.SingleQuotedStringChars src (i + 1) =
          (none, i + 1) := sqsc_fail_at_apos (by simpa using hdropj) (f + 2)
      simp [TOKENS, seqLoop, h1, h2, Cap.vals, tokenNameOf, sanitize_single_str]
    | cons d v2 =>
      have h2 : extract (f + 2) RuleName.SingleQuotedStringChars src (i + 1) =
          (some (Cap.tok (some RuleName.SingleQuotedStringChars) [Cap.str (d :: v2)]),
            (i + 1) + (d :: v2).length) :=
        ih (f + 1) (i + 1) hall.2 hdropj (by simp) (by simp at hfuel ⊢; omega)
      have hidx : i + (c :: d :: v2).length = (i + 1) + (d :: v2).length := by
        simp
        omega
      simp [TOKENS, seqLoop, h1, h2, Cap.vals, tokenNameOf, sanitize_two_str, hidx]
      omega

theorem singleQuotedString_complete {src r : List Char} {v : List Char} {i fuel : Nat}
    (hall : v.all isUnescSQChar = true)
    (hdrop : src.drop i = apos :: (v ++ apos :: r))
    (hne : v ≠ []) (hfuel : v.length + 3 ≤ fuel) :
    extract (fuel + 1) RuleName.SingleQuotedString src i =
      (some (Cap.tok (some RuleName.SingleQuotedString)
        [Cap.str [apos],
         Cap.tok (some RuleName.SingleQuotedStringChars) [Cap.str v],
         Cap.str [apos]]),
        i + 1 + v.length + 1) := by
  obtain ⟨f, rfl⟩ : ∃ f, fuel = f + 3 := ⟨fuel - 3, by omega⟩
  have hlit1 : litMatches src i [apos] = true :=
    litMatches_of_drop (r := v ++ apos :: r) (by simpa using hdrop)
  have hdrop1 : src.drop (i + 1) = v ++ apos :: r := drop_cons_succ hdrop
  have h2 : extract (f + 3) RuleName.SingleQuotedStringChars src (i + 1) =
      (some (Cap.tok (some RuleName.SingleQuotedStringChars) [Cap.str v]),
        (i + 1) + v.length) :=
    sqsc_complete v (f + 2) (i + 1) hall hdrop1 hne (by omega)
  have hdrop2 : src.drop (i + 1 + v.length) = apos :: r := drop_append_eq hdrop1
  have hlit2 : litMatches src (i + 1 + v.length) [apos] = true :=
    litMatches_of_drop (r := r) (by simpa using hdrop2)
  rw [extract_succ]
  simp [TOKENS, seqLoop, hlit1, hlit2, h2, tokenNameOf, sanitize]

theorem string_complete_single {src r : List Char} {v : List Char} {i fuel : Nat}
    (hall : v.all isUnescSQChar = true)
    (hdrop : src.drop i = apos :: (v ++ apos :: r))
    (hne : v ≠ []) (hfuel : v.length + 4 ≤ fuel) :
    extract (fuel + 1) RuleName.String src i =
      (some (Cap.tok (some RuleName.SingleQuotedString)
        [Cap.str [apos],
         Cap.tok (some RuleName.SingleQuotedStringChars) [Cap.str v],
         Cap.str [apos]]),
        i + 1 + v.length + 1) := by
  obtain ⟨f, rfl⟩ : ∃ f, fuel = f + 4 := ⟨fuel - 4, by omega⟩
  cases v with
  | nil => exact absurd rfl hne
  | cons d v2 =>
    have hc : src.drop i = apos :: ((d :: v2) ++ apos :: r) := hdrop
    have hc2 : src.drop i = apos :: d :: (v2 ++ apos :: r) := by simpa using hc
    have hno1 : extract (f + 4) RuleName.UnquotedString src i = (none, i) :=
      unquoted_fail hc (by simp [isSafeChar]) (f + 4)
    have hno2 : extract (f + 4) RuleName.EmptyString src i = (none, i) :=
      emptyString_fail_two hc2 (fun h => absurd h.1 (by decide)) (f + 4)
    have hno3 : extract (f + 4) RuleName.QuotedString src i = (none, i) :=
      quotedString_fail hc (by decide) (f + 4)
    have h4 : extract (f + 4) RuleName.SingleQuotedString src i =
        (some (Cap.tok (some RuleName.SingleQuotedString)
          [Cap.str [apos],
           Cap.tok (some RuleName.SingleQuotedStringChars) [Cap.str (d :: v2)],
           Cap.str [apos]]),
          i + 1 + (d :: v2).length + 1) :=
      singleQuotedString_complete hall hdrop hne (by omega)
    rw [extract_succ]
    simp [TOKENS, orLoop, hno1, hno2, hno3, h4]

/-! ### Decoding the three quoted capture shapes -/

theorem parseString_quoted (v : List Char) :
    parseString (Cap.tok (some RuleName.QuotedString)
      [Cap.str ['"'],
       Cap.tok (some RuleName.QuotedStringChars) [Cap.str v],
       Cap.str ['"']]) = .ok v := rfl

theorem parseString_single (v : List Char) :
    parseString (Cap.tok (some RuleName.SingleQuotedString)
      [Cap.str [apos],
       Cap.tok (some RuleName.SingleQuotedStringChars) [Cap.str v],
       Cap.str [apos]]) = .ok v := rfl

theorem parseString_empty :
    parseString (Cap.tok (some RuleName.EmptyString) [Cap.str ['"', '"']]) =
      .ok [] := rfl

/-! ### Length bounds on the serialized forms -/

theorem escJsonChar_len_pos (c : Char) : 1 ≤ (escJsonChar c).length := by
  unfold escJsonChar
  split_ifs <;> simp [hex4]

theorem escL_len (v : List Char) : v.length ≤ (escL v).length := by
  induction v with
  | nil => simp [escL]
  | cons c v ih =>
    rw [escL_cons, List.length_append, List.length_cons]
    have := escJsonChar_len_pos c
    omega

theorem jsonQuoteL_eq (v : List Char) :
    jsonQuoteL v = '"' :: escL v ++ ['"'] := rfl

theorem jsonQuoteL_len (v : List Char) :
    (jsonQuoteL v).length = (escL v).length + 2 := by
  rw [jsonQuoteL_eq]
  simp

theorem serL_len (v : List Char) : v.length + 2 ≤ (serializeStringL v).length := by
  unfold serializeStringL
  split_ifs with h
  · simp
  · have := escL_len v
    rw [jsonQuoteL_len]
    omega

/-! ### Facts extracted from the `vOK` side condition -/

theorem contains_nl_ne_nil {v : List Char} (h : v.contains '\n' = true) :
    v ≠ [] := by
  intro hv
  subst hv
  simp at h

theorem no_apos_all {v : List Char} (hna : v.contains apos = false) :
    v.all isUnescSQChar = true := by
  rw [List.all_eq_true]
  intro c hc
  simp only [isUnescSQChar, Bool.not_eq_true', decide_eq_false_iff_not]
  intro hce
  subst hce
  rw [List.contains_eq_any_beq] at hna
  have : v.any (fun x => apos == x) = true := by
    rw [List.any_eq_true]
    exact ⟨apos, hc, by simp⟩
  rw [this] at hna
  cases hna

/-- The serialized value re-parses: for any `vOK` value, the `String` rule
consumes exactly `serializeStringL v` and the decoder recovers `v`. -/
theorem string_complete_ser {src r : List Char} {v : List Char} {i fuel : Nat}
    (hv : vOK v = true)
    (hdrop : src.drop i = serializeStringL v ++ r)
    (hfuel : v.length + 4 ≤ fuel) :
    ∃ sv, extract (fuel + 1) RuleName.String src i =
        (some sv, i + (serializeStringL v).length) ∧
      parseString sv = .ok v ∧ ∃ nm vs, sv = Cap.tok nm vs := by
  by_cases hb : (v.contains '\n' && !(v.contains apos)) = true
  · have hser : serializeStringL v = apos :: v ++ [apos] := by
      rw [serializeStringL, if_pos hb]
    rw [hser] at hdrop
    rw [Bool.and_eq_true, Bool.not_eq_true'] at hb
    have hne : v ≠ [] := contains_nl_ne_nil hb.1
    have hall : v.all isUnescSQChar = true := no_apos_all hb.2
    have hdrop2 : src.drop i = apos :: (v ++ apos :: r) := by
      rw [hdrop]
      simp
    have h := string_complete_single hall hdrop2 hne hfuel
    have hlen : i + 1 + v.length + 1 = i + (serializeStringL v).length := by
      rw [hser]
      simp
      omega
    exact ⟨_, by rw [h, hlen], parseString_single v, _, _, rfl⟩
  · have hser : serializeStringL v = jsonQuoteL v := by
      rw [serializeStringL, if_neg hb]
    rw [hser] at hdrop
    cases v with
    | nil =>
      obtain ⟨f, rfl⟩ : ∃ f, fuel = f + 2 := ⟨fuel - 2, by omega⟩
      have hdrop2 : src.drop i = '"' :: '"' :: r := by
        rw [hdrop, jsonQuoteL_eq]
        simp [escL]
      have hlen : i + 2 = i + (serializeStringL []).length := rfl
      exact ⟨_, by rw [string_complete_empty hdrop2, hlen], parseString_empty,
        _, _, rfl⟩
    | cons c v2 =>
      have hall : (c :: v2).all jsonAtomic = true := by
        have hvv : vOK (c :: v2) = true := hv
        rw [vOK] at hvv
        rcases Bool.or_eq_true _ _ |>.mp hvv with h | h
        · exact absurd h hb
        · exact h
      have hdrop2 : src.drop i = '"' :: (escL (c :: v2) ++ '"' :: r) := by
        rw [hdrop, jsonQuoteL_eq]
        simp
      have h := string_complete_json hall hdrop2 (by simp) hfuel
      have hlen : i + 1 + (escL (c :: v2)).length + 1 =
          i + (serializeStringL (c :: v2)).length := by
        rw [hser, jsonQuoteL_len]
        omega
      exact ⟨_, by rw [h, hlen], parseString_quoted (c :: v2), _, _, rfl⟩

/-! ### `keyedEntry` on serialized entries -/

theorem sanitize_entry3 (a c : Option RuleName) (b d : List Cap) (s : List Char) :
    sanitize [Cap.tok a b, Cap.str s, Cap.tok c d] =
      [Cap.tok a b, Cap.str s, Cap.tok c d] := rfl

theorem keyedEntry_complete {src tail : List Char} {k : List Char} {i fuel j : Nat}
    {nm : Option RuleName} {vs : List Cap}
    (hk : validKeyL k = true)
    (hdrop : src.drop i = k ++ '=' :: tail)
    (hstr : extract fuel RuleName.String src (i + k.length + 1) =
      (some (Cap.tok nm vs), j))
    (hkf : k.length + 2 ≤ fuel) :
    extract (fuel + 1) RuleName.keyedEntry src i =
      (some (Cap.tok (some RuleName.keyedEntry)
        [Cap.tok (some RuleName.Key) [Cap.str k], Cap.str ['='], Cap.tok nm vs]),
        j) := by
  obtain ⟨f, rfl⟩ : ∃ f, fuel = f + 1 := ⟨fuel - 1, by omega⟩
  have hkey : extract (f + 1) RuleName.Key src i =
      (some (Cap.tok (some RuleName.Key) [Cap.str k]), i + k.length) :=
    key_complete hk hdrop (by decide) (by omega)
  have hdropEq : src.drop (i + k.length) = '=' :: tail := drop_append_eq hdrop
  have hlit : litMatches src (i + k.length) ['='] = true :=
    litMatches_of_drop (r := tail) (by simpa using hdropEq)
  rw [extract_succ]
  simp [TOKENS, seqLoop, hkey, hlit, hstr, tokenNameOf, sanitize_entry3]

/-- One serialized entry: `KEY=` followed by the serialized value. -/
def entryL (k v : List Char) : List Char := k ++ '=' :: serializeStringL v

/-- The capture shape a serialized entry parses to. -/
def entryCapFor (cap : Cap) (k v : List Char) : Prop :=
  ∃ sv, cap = Cap.tok (some RuleName.keyedEntry)
      [Cap.tok (some RuleName.Key) [Cap.str k], Cap.str ['='], sv] ∧
    parseString sv = Except.ok v

theorem keyedEntry_ser {src tail : List Char} {k v : List Char} {i fuel : Nat}
    (hk : validKeyL k = true) (hv : vOK v = true)
    (hdrop : src.drop i = entryL k v ++ tail)
    (hfuel : k.length + v.length + 6 ≤ fuel) :
    ∃ cap, extract (fuel + 1) RuleName.keyedEntry src i =
        (some cap, i + (entryL k v).length) ∧ entryCapFor cap k v := by
  have hdrop2 : src.drop i = k ++ '=' :: (serializeStringL v ++ tail) := by
    rw [hdrop, entryL]
    simp
  obtain ⟨f, rfl⟩ : ∃ f, fuel = f + 1 := ⟨fuel - 1, by omega⟩
  have hdropK : src.drop (i + k.length) = '=' :: (serializeStringL v ++ tail) :=
    drop_append_eq hdrop2
  have hdropV : src.drop (i + k.length + 1) = serializeStringL v ++ tail :=
    drop_cons_succ hdropK
  obtain ⟨sv, hstr, hps, nm, vs, rfl⟩ :=
    @string_complete_ser src tail v (i + k.length + 1) f hv hdropV (by omega)
  have hidx : (i + k.length + 1) + (serializeStringL v).length =
      i + (entryL k v).length := by
    simp [entryL]
    omega
  refine ⟨_, ?_, Cap.tok nm vs, rfl, hps⟩
  rw [keyedEntry_complete hk hdrop2 hstr (by omega), hidx]

/-! ### Failure of the other main tokens at an entry start -/

theorem whitespace_fail_cons {src r : List Char} {c : Char} {i : Nat}
    (hdrop : src.drop i = c :: r) (hc : isSpaceChar c = false) :
    ∀ f, extract f RuleName.Whitespace src i = (none, i)
  | 0 => rfl
  | f + 1 => by
    rw [extract_succ]
    simp [TOKENS, seqLoop, charAt_of_drop_cons hdrop, hc]

theorem comment_fail_cons {src r : List Char} {c : Char} {i : Nat}
    (hdrop : src.drop i = c :: r) (hc : ¬ c = '#') :
    ∀ f, extract f RuleName.Comment src i = (none, i)
  | 0 => rfl
  | f + 1 => by
    rw [extract_succ]
    simp [TOKENS, seqLoop, litMatches_one_false hdrop hc]

theorem ws_one_newline {src r : List Char} {c2 : Char} {i : Nat} (f : Nat)
    (hdrop : src.drop i = '\n' :: c2 :: r) (hc : isSpaceChar c2 = false) :
    extract (f + 1) RuleName.Whitespace src i =
      (some (Cap.tok (some RuleName.Whitespace) [Cap.str ['\n']]), i + 1) := by
  have hsub : extract f RuleName.Whitespace src (i + 1) = (none, i + 1) :=
    whitespace_fail_cons (drop_cons_succ hdrop) hc f
  have hnl : isSpaceChar '\n' = true := by decide
  rw [extract_succ]
  simp [TOKENS, seqLoop, charAt_of_drop_cons hdrop, hsub, tokenNameOf,
    sanitize_single_str, hnl]

/-! ### Character-class disjointness -/

theorem validKey_head {k : List Char} (hk : validKeyL k = true) :
    ∃ c t, k = c :: t ∧ isAlphaU c = true := by
  cases k with
  | nil => simp [validKeyL] at hk
  | cons c t =>
    rw [show validKeyL (c :: t) = (isAlphaU c && t.all isAlphaNumU) from rfl,
      Bool.and_eq_true] at hk
    exact ⟨c, t, rfl, hk.1⟩

theorem alpha_not_space {c : Char} (h : isAlphaU c = true) :
    isSpaceChar c = false := by
  simp only [isAlphaU, Bool.or_eq_true, Bool.and_eq_true, decide_eq_true_eq] at h
  simp only [isSpaceChar, Bool.or_eq_false_iff, Bool.and_eq_false_iff,
    decide_eq_false_iff_not]
  omega

theorem alpha_ne_hash {c : Char} (h : isAlphaU c = true) : ¬ c = '#' := by
  intro hc
  subst hc
  exact absurd h (by decide)

theorem drop_cons_lt_length {src r : List Char} {c : Char} {i : Nat}
    (hdrop : src.drop i = c :: r) : i < src.length := by
  by_contra hlt
  rw [List.drop_eq_nil_of_le (by omega)] at hdrop
  cases hdrop

theorem drop_nil_not_lt {src : List Char} {j : Nat}
    (hdrop : src.drop j = []) : ¬ j < src.length := by
  intro hlt
  have h2 := congrArg List.length hdrop
  rw [List.length_drop] at h2
  simp at h2
  omega

/-! ### Lexer steps on serialized documents -/

theorem lexStep_entry {src : List Char} {i fuel j : Nat} {cap : Cap}
    (hws : extract fuel RuleName.Whitespace src i = (none, i))
    (hcm : extract fuel RuleName.Comment src i = (none, i))
    (hke : extract fuel RuleName.keyedEntry src i = (some cap, j)) :
    lexStep fuel src i = ([cap], j) := by
  simp [lexStep, hws, hcm, hke]

theorem lexStep_nl {src : List Char} {i fuel j : Nat} {w cap : Cap}
    (hws : extract fuel RuleName.Whitespace src i = (some w, i + 1))
    (hcm : extract fuel RuleName.Comment src (i + 1) = (none, i + 1))
    (hke : extract fuel RuleName.keyedEntry src (i + 1) = (some cap, j)) :
    lexStep fuel src i = ([w, cap], j) := by
  simp [lexStep, hws, hcm, hke]

theorem lexAll_end {src : List Char} {j : Nat} (hdrop : src.drop j = []) :
    ∀ f, lexAll f src j = ([], none)
  | 0 => by simp [lexAll, drop_nil_not_lt hdrop]
  | f + 1 => by simp [lexAll, drop_nil_not_lt hdrop]

/-! ### Assembler steps -/

theorem assembleLoop_ws {xd : Bool} {rest : List Cap}
    {m : List (String × EntryVal)} {ld : List Char} {vs : List Cap} :
    assembleLoop xd (Cap.tok (some RuleName.Whitespace) vs :: rest) m ld =
      assembleLoop xd rest m ld := by
  simp [assembleLoop, Cap.tokName]

theorem assembleLoop_entry_plain {rest : List Cap} {m : List (String × EntryVal)}
    {ld : List Char} {cap : Cap} {k v : List Char}
    (h : entryCapFor cap k v) :
    assembleLoop false (cap :: rest) m ld =
      assembleLoop false rest
        (setKey m (String.mk k) (EntryVal.plain (String.mk v))) [] := by
  obtain ⟨sv, rfl, hps⟩ := h
  simp [assembleLoop, Cap.tokName, jsAt, Cap.vals, hps]

/-! ### The serialized document, entry by entry -/

/-- The serialized text of a document given as key/value character lists. -/
def docL (ps : List (List Char × List Char)) : List Char :=
  joinNl (ps.map (fun p => entryL p.1 p.2))

/-- Writing all the pairs into a document, in order. -/
def setFold (m : List (String × EntryVal)) (ps : List (List Char × List Char)) :
    List (String × EntryVal) :=
  ps.foldl (fun acc p => setKey acc (String.mk p.1) (EntryVal.plain (String.mk p.2))) m

theorem entryL_len (k v : List Char) :
    (entryL k v).length = k.length + 1 + (serializeStringL v).length := by
  simp [entryL]
  omega

theorem docL_cons_nil (p : List Char × List Char) :
    docL [p] = entryL p.1 p.2 := rfl

theorem docL_cons {p : List Char × List Char} {ps : List (List Char × List Char)}
    (h : ps ≠ []) : docL (p :: ps) = entryL p.1 p.2 ++ '\n' :: docL ps := by
  cases ps with
  | nil => exact absurd rfl h
  | cons q qs => rfl

theorem setFold_cons (m : List (String × EntryVal)) (p : List Char × List Char)
    (ps : List (List Char × List Char)) :
    setFold m (p :: ps) =
      setFold (setKey m (String.mk p.1) (EntryVal.plain (String.mk p.2))) ps := rfl

/-- Lexing a serialized document from a newline separator: each iteration
consumes the separator and the following entry. -/
theorem lexAll_doc_nl {src : List Char} :
    ∀ (ps : List (List Char × List Char)) (fuel i : Nat),
    (∀ p ∈ ps, validKeyL p.1 = true ∧ vOK p.2 = true) →
    src.drop i = '\n' :: docL ps → ps ≠ [] →
    (docL ps).length + 9 ≤ fuel →
    ∃ caps, lexAll fuel src i = (caps, none) ∧
      ∀ m ld, assembleLoop false caps m ld = .ok (setFold m ps) := by
  intro ps
  induction ps with
  | nil => intro _ _ _ _ hne _; exact absurd rfl hne
  | cons p rest ih =>
    intro fuel i hgood hdrop _ hfuel
    obtain ⟨f, rfl⟩ : ∃ f, fuel = f + 1 := ⟨fuel - 1, by omega⟩
    obtain ⟨hk, hv⟩ := hgood p (by simp)
    obtain ⟨c, t, hkc, hca⟩ := validKey_head hk
    have hserlen := serL_len p.2
    -- the suffix after this entry
    have hshape : ∃ tail, src.drop i = '\n' :: (entryL p.1 p.2 ++ tail) ∧
        ((rest = [] ∧ tail = []) ∨ (rest ≠ [] ∧ tail = '\n' :: docL rest)) := by
      cases hr : rest with
      | nil =>
        subst hr
        refine ⟨[], ?_, Or.inl ⟨rfl, rfl⟩⟩
        rw [hdrop, docL_cons_nil]
        simp
      | cons q qs =>
        subst hr
        refine ⟨'\n' :: docL (q :: qs), ?_, Or.inr ⟨by simp, rfl⟩⟩
        rw [hdrop, docL_cons (by simp)]
    obtain ⟨tail, hdropE, htail⟩ := hshape
    have hheadc : src.drop i = '\n' :: c :: (t ++ '=' :: serializeStringL p.2 ++ tail) := by
      rw [hdropE, entryL, hkc]
      simp
    have hws : extract (f + 1) RuleName.Whitespace src i =
        (some (Cap.tok (some RuleName.Whitespace) [Cap.str ['\n']]), i + 1) :=
      ws_one_newline f hheadc (alpha_not_space hca)
    have hdrop1 : src.drop (i + 1) = entryL p.1 p.2 ++ tail := drop_cons_succ hdropE
    have hdrop1c : src.drop (i + 1) = c :: (t ++ '=' :: serializeStringL p.2 ++ tail) := by
      rw [hdrop1, entryL, hkc]
      simp
    have hcm : extract (f + 1) RuleName.Comment src (i + 1) = (none, i + 1) :=
      comment_fail_cons hdrop1c (alpha_ne_hash hca) (f + 1)
    have hentlen : (entryL p.1 p.2).length + 1 ≤ (docL (p :: rest)).length + 1 := by
      rcases htail with ⟨hr, rfl⟩ | ⟨hr, rfl⟩
      · subst hr
        rw [docL_cons_nil]
      · rw [docL_cons hr]
        simp
    have hke : ∃ cap, extract (f + 1) RuleName.keyedEntry src (i + 1) =
        (some cap, (i + 1) + (entryL p.1 p.2).length) ∧ entryCapFor cap p.1 p.2 := by
      refine keyedEntry_ser hk hv hdrop1 ?_
      rw [entryL_len] at hentlen
      omega
    obtain ⟨cap, hke, hcapfor⟩ := hke
    have hstep : lexStep (f + 1) src i =
        ([Cap.tok (some RuleName.Whitespace) [Cap.str ['\n']], cap],
          (i + 1) + (entryL p.1 p.2).length) :=
      lexStep_nl hws hcm hke
    have hlt : i < src.length := drop_cons_lt_length hdropE
    have hjne : ¬ ((i + 1) + (entryL p.1 p.2).length = i) := by omega
    have hdropj : src.drop ((i + 1) + (entryL p.1 p.2).length) = tail := by
      have := drop_append_eq hdrop1
      exact this
    rcases htail with ⟨hr, rfl⟩ | ⟨hr, rfl⟩
    · subst hr
      have hend : lexAll f src ((i + 1) + (entryL p.1 p.2).length) = ([], none) :=
        lexAll_end hdropj f
      refine ⟨[Cap.tok (some RuleName.Whitespace) [Cap.str ['\n']], cap], ?_, ?_⟩
      · rw [show lexAll (f + 1) src i =
            (if i < src.length then
              match lexStep (f + 1) src i with
              | (caps, j) =>
                if j = i then (caps, some (stuckError src i))
                else
                  match lexAll f src j with
                  | (caps2, err) => (caps ++ caps2, err)
            else ([], none)) from rfl]
        simp [hlt, hstep, hjne, hend]
      · intro m ld
        rw [assembleLoop_ws, assembleLoop_entry_plain hcapfor]
        rfl
    · obtain ⟨caps2, hlex2, hasm2⟩ :=
        ih f ((i + 1) + (entryL p.1 p.2).length)
          (fun q hq => hgood q (by simp [hq]))
          hdropj hr
          (by
            rw [docL_cons hr] at hfuel
            simp at hfuel
            omega)
      refine ⟨Cap.tok (some RuleName.Whitespace) [Cap.str ['\n']] :: cap :: caps2,
        ?_, ?_⟩
      · rw [show lexAll (f + 1) src i =
            (if i < src.length then
              match lexStep (f + 1) src i with
              | (caps, j) =>
                if j = i then (caps, some (stuckError src i))
                else
                  match lexAll f src j with
                  | (caps2, err) => (caps ++ caps2, err)
            else ([], none)) from rfl]
        simp [hlt, hstep, hjne, hlex2]
      · intro m ld
        rw [assembleLoop_ws, assembleLoop_entry_plain hcapfor, hasm2]
        rfl

/-- Lexing a serialized document from its first entry. -/
theorem lexAll_doc_start {src : List Char}
    (ps : List (List Char × List Char)) (fuel i : Nat)
    (hgood : ∀ p ∈ ps, validKeyL p.1 = true ∧ vOK p.2 = true)
    (hdrop : src.drop i = docL ps) (hne : ps ≠ [])
    (hfuel : (docL ps).length + 9 ≤ fuel) :
    ∃ caps, lexAll fuel src i = (caps, none) ∧
      ∀ m ld, assembleLoop false caps m ld = .ok (setFold m ps) := by
  cases ps with
  | nil => exact absurd rfl hne
  | cons p rest =>
    obtain ⟨f, rfl⟩ : ∃ f, fuel = f + 1 := ⟨fuel - 1, by omega⟩
    obtain ⟨hk, hv⟩ := hgood p (by simp)
    obtain ⟨c, t, hkc, hca⟩ := validKey_head hk
    have hserlen := serL_len p.2
    have hshape : ∃ tail, src.drop i = entryL p.1 p.2 ++ tail ∧
        ((rest = [] ∧ tail = []) ∨ (rest ≠ [] ∧ tail = '\n' :: docL rest)) := by
      cases hr : rest with
      | nil =>
        subst hr
        refine ⟨[], ?_, Or.inl ⟨rfl, rfl⟩⟩
        rw [hdrop, docL_cons_nil]
        simp
      | cons q qs =>
        subst hr
        refine ⟨'\n' :: docL (q :: qs), ?_, Or.inr ⟨by simp, rfl⟩⟩
        rw [hdrop, docL_cons (by simp)]
    obtain ⟨tail, hdropE, htail⟩ := hshape
    have hheadc : src.drop i = c :: (t ++ '=' :: serializeStringL p.2 ++ tail) := by
      rw [hdropE, entryL, hkc]
      simp
    have hws : extract (f + 1) RuleName.Whitespace src i = (none, i) :=
      whitespace_fail_cons hheadc (alpha_not_space hca) (f + 1)
    have hcm : extract (f + 1) RuleName.Comment src i = (none, i) :=
      comment_fail_cons hheadc (alpha_ne_hash hca) (f + 1)
    have hentlen : (entryL p.1 p.2).length ≤ (docL (p :: rest)).length := by
      rcases htail with ⟨hr, rfl⟩ | ⟨hr, rfl⟩
      · subst hr
        rw [docL_cons_nil]
      · rw [docL_cons hr]
        simp
    have hke : ∃ cap, extract (f + 1) RuleName.keyedEntry src i =
        (some cap, i + (entryL p.1 p.2).length) ∧ entryCapFor cap p.1 p.2 := by
      refine keyedEntry_ser hk hv hdropE ?_
      rw [entryL_len] at hentlen
      omega
    obtain ⟨cap, hke, hcapfor⟩ := hke
    have hstep : lexStep (f + 1) src i = ([cap], i + (entryL p.1 p.2).length) :=
      lexStep_entry hws hcm hke
    have hlt : i < src.length := drop_cons_lt_length hheadc
    have hentpos : 1 ≤ (entryL p.1 p.2).length := by
      rw [entryL_len]
      omega
    have hjne : ¬ (i + (entryL p.1 p.2).length = i) := by omega
    have hdropj : src.drop (i + (entryL p.1 p.2).length) = tail :=
      drop_append_eq hdropE
    rcases htail with ⟨hr, rfl⟩ | ⟨hr, rfl⟩
    · subst hr
      have hend : lexAll f src (i + (entryL p.1 p.2).length) = ([], none) :=
        lexAll_end hdropj f
      refine ⟨[cap], ?_, ?_⟩
      · rw [show lexAll (f + 1) src i =
            (if i < src.length then
              match lexStep (f + 1) src i with
              | (caps, j) =>
                if j = i then (caps, some (stuckError src i))
                else
                  match lexAll f src j with
                  | (caps2, err) => (caps ++ caps2, err)
            else ([], none)) from rfl]
        simp [hlt, hstep, hjne, hend]
      · intro m ld
        rw [assembleLoop_entry_plain hcapfor]
        rfl
    · obtain ⟨caps2, hlex2, hasm2⟩ :=
        lexAll_doc_nl rest f (i + (entryL p.1 p.2).length)
          (fun q hq => hgood q (by simp [hq]))
          hdropj hr
          (by
            rw [docL_cons hr] at hfuel
            simp at hfuel
            omega)
      refine ⟨cap :: caps2, ?_, ?_⟩
      · rw [show lexAll (f + 1) src i =
            (if i < src.length then
              match lexStep (f + 1) src i with
              | (caps, j) =>
                if j = i then (caps, some (stuckError src i))
                else
                  match lexAll f src j with
                  | (caps2, err) => (caps ++ caps2, err)
            else ([], none)) from rfl]
        simp [hlt, hstep, hjne, hlex2]
      · intro m ld
        rw [assembleLoop_entry_plain hcapfor, hasm2]
        rfl

/-! ### From the lexer lemmas to `parse (serialize doc)` -/

theorem mk_toList (s : String) : String.mk s.toList = s := rfl

theorem serializeEntryL_plain (k v : String) :
    serializeEntryL k (EntryVal.plain v) = entryL k.toList v.toList := by
  simp [serializeEntryL, entryDescription, entryValue, entryL]

theorem setKey_not_present {m : List (String × EntryVal)} {k : String}
    {v : EntryVal} (h : m.any (fun p => p.1 = k) = false) :
    setKey m k v = m ++ [(k, v)] := by
  simp [setKey, h]

theorem setFold_fresh :
    ∀ (ps : List (List Char × List Char)) (m : List (String × EntryVal)),
    (∀ p ∈ ps, m.any (fun q => q.1 = String.mk p.1) = false) →
    (ps.map (fun p => String.mk p.1)).Nodup →
    setFold m ps =
      m ++ ps.map (fun p => (String.mk p.1, EntryVal.plain (String.mk p.2))) := by
  intro ps
  induction ps with
  | nil => intro m _ _; simp [setFold]
  | cons p rest ih =>
    intro m hfresh hnd
    rw [setFold_cons, setKey_not_present (hfresh p (by simp))]
    rw [List.map_cons, List.nodup_cons] at hnd
    rw [ih (m ++ [(String.mk p.1, EntryVal.plain (String.mk p.2))]) ?_ hnd.2]
    · simp
    · intro q hq
      rw [List.any_append]
      rw [Bool.or_eq_false_iff]
      refine ⟨hfresh q (by simp [hq]), ?_⟩
      simp only [List.any_cons, List.any_nil, Bool.or_false, decide_eq_false_iff_not]
      intro hcontra
      exact hnd.1 (hcontra ▸ List.mem_map_of_mem (fun p => String.mk p.1) hq)

/-- Re-parsing a serialized all-plain document with valid, distinct keys and
re-parsable values recovers the document. -/
theorem parse_serialize_plain (doc : List (String × EntryVal))
    (hplain : ∀ p ∈ doc, ∃ v, p.2 = EntryVal.plain v)
    (hkeys : ∀ p ∈ doc, validKeyStr p.1 = true)
    (hnodup : (doc.map Prod.fst).Nodup)
    (hvok : ∀ p ∈ doc, vOK (entryValue p.2).toList = true) :
    parse (serialize doc) false = .ok doc := by
  cases hd : doc with
  | nil => rfl
  | cons d0 drest =>
    subst hd
    set doc := d0 :: drest with hdoc
    have hsrcs : (serialize doc).toList =
        docL (doc.map (fun p => (p.1.toList, (entryValue p.2).toList))) := by
      show joinNl (doc.map (fun p => serializeEntryL p.1 p.2)) = _
      rw [docL, List.map_map]
      congr 1
      refine List.map_congr_left ?_
      intro p hp
      obtain ⟨v, hv⟩ := hplain p hp
      obtain ⟨k2, e2⟩ := p
      simp only at hv
      subst hv
      rfl
    obtain ⟨caps, hlex, hasm⟩ :=
      @lexAll_doc_start (serialize doc).toList
        (doc.map (fun p => (p.1.toList, (entryValue p.2).toList)))
        (parseFuel (serialize doc).toList) 0
        (by
          intro q hq
          rw [List.mem_map] at hq
          obtain ⟨p, hp, rfl⟩ := hq
          exact ⟨hkeys p hp, hvok p hp⟩)
        (by rw [List.drop_zero, hsrcs])
        (by simp)
        (by
          rw [parseFuel, hsrcs]
          omega)
    have hkeymap :
        ((doc.map (fun p => (p.1.toList, (entryValue p.2).toList))).map
          (fun p => String.mk p.1)).Nodup := by
      rw [List.map_map]
      have he : doc.map ((fun p : List Char × List Char => String.mk p.1) ∘
          (fun p : String × EntryVal => (p.1.toList, (entryValue p.2).toList))) =
          doc.map Prod.fst :=
        List.map_congr_left (fun p _ => mk_toList p.1)
      rw [he]
      exact hnodup
    have hfold : setFold []
        (doc.map (fun p => (p.1.toList, (entryValue p.2).toList))) = doc := by
      rw [setFold_fresh _ [] (by simp) hkeymap, List.nil_append, List.map_map]
      have he : doc.map ((fun p : List Char × List Char =>
            (String.mk p.1, EntryVal.plain (String.mk p.2))) ∘
          (fun p : String × EntryVal => (p.1.toList, (entryValue p.2).toList))) =
          doc.map id := by
        refine List.map_congr_left ?_
        intro p hp
        obtain ⟨v, hv⟩ := hplain p hp
        obtain ⟨k2, e2⟩ := p
        simp only at hv
        subst hv
        rfl
      rw [he, List.map_id]
    show (match lexAll (parseFuel (serialize doc).toList) (serialize doc).toList 0 with
      | (caps, lexErr) =>
        match assembleLoop false caps [] [] with
        | .error e => .error e
        | .ok m =>
          match lexErr with
          | some e => .error e
          | none => .ok m) = Except.ok doc
    rw [hlex]
    show (match assembleLoop false caps [] [] with
      | Except.error e => Except.error e
      | Except.ok m =>
        match (none : Option JsError) with
        | some e => Except.error e
        | none => Except.ok m) = Except.ok doc
    rw [hasm [] []]
    exact congrArg Except.ok hfold

/-! ### Soundness: the shape of successful extractions -/

theorem extract_zero (nm : RuleName) (src : List Char) (i : Nat) :
    extract 0 nm src i = (none, i) := rfl

theorem extract_succ_seq {nm : RuleName} {parts : List TokenPart} {rep : Bool}
    (hn : TOKENS nm = Rule.seq parts rep) (f : Nat) (src : List Char) (i : Nat) :
    extract (f + 1) nm src i =
      match seqLoop (fun t k => extract f t src k) src parts i with
      | none => (none, i)
      | some (vals, j) =>
        (some (Cap.tok (tokenNameOf nm)
          (if rep then escapeReplacer (sanitize vals) else sanitize vals)), j) := by
  rw [extract_succ, hn]

theorem extract_succ_alt {nm : RuleName} {alts : List RuleName}
    (hn : TOKENS nm = Rule.alt alts) (f : Nat) (src : List Char) (i : Nat) :
    extract (f + 1) nm src i =
      orLoop (fun t k => extract f t src k) alts i := by
  rw [extract_succ, hn]

theorem seqLoop_chain_fail {recur : RuleName → Nat → Option Cap × Nat}
    {src : List Char} {X S2 : RuleName} {i j1 : Nat}
    (h1 : recur X i = (none, j1)) :
    seqLoop recur src [TokenPart.sub X false true, TokenPart.sub S2 true true] i =
      none := by
  simp [seqLoop, h1]

theorem seqLoop_chain_break {recur : RuleName → Nat → Option Cap × Nat}
    {src : List Char} {X S2 : RuleName} {i j j2 : Nat} {v : Cap}
    (h1 : recur X i = (some v, j)) (h2 : recur S2 j = (none, j2)) :
    seqLoop recur src [TokenPart.sub X false true, TokenPart.sub S2 true true] i =
      some (v.vals, j) := by
  simp [seqLoop, h1, h2]

theorem seqLoop_chain_cont {recur : RuleName → Nat → Option Cap × Nat}
    {src : List Char} {X S2 : RuleName} {i j k : Nat} {v w : Cap}
    (h1 : recur X i = (some v, j)) (h2 : recur S2 j = (some w, k)) :
    seqLoop recur src [TokenPart.sub X false true, TokenPart.sub S2 true true] i =
      some (v.vals ++ w.vals, k) := by
  simp [seqLoop, h1, h2]

theorem extract_seq_some {f : Nat} {nm : RuleName} {src : List Char}
    {i j : Nat} {cap : Cap} {parts : List TokenPart} {rep : Bool}
    (hn : TOKENS nm = Rule.seq parts rep)
    (h : extract f nm src i = (some cap, j)) :
    ∃ vs, cap = Cap.tok (tokenNameOf nm) vs := by
  cases f with
  | zero => simp [extract_zero] at h
  | succ f =>
    rw [extract_succ_seq hn] at h
    rcases hs : seqLoop (fun t k => extract f t src k) src parts i with _ | ⟨vals, j2⟩
    · rw [hs] at h
      simp at h
    · rw [hs] at h
      simp at h
      exact ⟨_, h.1.symm⟩

theorem extract_some_is_tok :
    ∀ (f : Nat) (nm : RuleName) {src : List Char} {i j : Nat} {cap : Cap},
    extract f nm src i = (some cap, j) → ∃ n2 vs, cap = Cap.tok n2 vs := by
  intro f
  induction f with
  | zero => intro nm src i j cap h; simp [extract_zero] at h
  | succ f ih =>
    intro nm src i j cap h
    rcases hn : TOKENS nm with ⟨parts, rep⟩ | alts
    · obtain ⟨vs, hv⟩ := extract_seq_some hn h
      exact ⟨_, _, hv⟩
    · rw [extract_succ_alt hn] at h
      clear hn
      induction alts generalizing i with
      | nil => simp [orLoop] at h
      | cons a rest iha =>
        rcases h1 : extract f a src i with ⟨ov, j1⟩
        cases ov with
        | none =>
          rw [show orLoop (fun t k => extract f t src k) (a :: rest) i =
              orLoop (fun t k => extract f t src k) rest j1 from by
            simp [orLoop, h1]] at h
          exact iha h
        | some v =>
          rw [show orLoop (fun t k => extract f t src k) (a :: rest) i =
              (some v, j1) from by simp [orLoop, h1]] at h
          simp at h
          obtain ⟨rfl, rfl⟩ := h
          exact ih a h1

theorem extract_regex1_some {nm : RuleName} {p : Char → Bool}
    (hn : TOKENS nm = Rule.seq [TokenPart.regex p] false)
    {f : Nat} {src : List Char} {i j : Nat} {cap : Cap}
    (h : extract f nm src i = (some cap, j)) :
    ∃ c, cap = Cap.tok (tokenNameOf nm) [Cap.str [c]] ∧ p c = true ∧ j = i + 1 := by
  cases f with
  | zero => simp [extract_zero] at h
  | succ f =>
    rw [extract_regex1 hn] at h
    rcases hcc : charAt src i with _ | c
    · rw [hcc] at h
      simp at h
    · rw [hcc] at h
      by_cases hp : p c = true
      · simp only [hp, if_true] at h
        simp at h
        exact ⟨c, h.1.symm, hp, h.2.symm⟩
      · simp only [hp, if_false] at h
        simp at h

theorem anuchars_some :
    ∀ (f : Nat) {src : List Char} {i j : Nat} {cap : Cap},
    extract f RuleName.AlphaNumUChars src i = (some cap, j) →
    ∃ t, cap = Cap.tok (some RuleName.AlphaNumUChars) [Cap.str t] ∧
      t ≠ [] ∧ t.all isAlphaNumU = true := by
  intro f
  induction f with
  | zero => intro src i j cap h; simp [extract_zero] at h
  | succ f ih =>
    intro src i j cap h
    rw [extract_succ_seq (show TOKENS RuleName.AlphaNumUChars =
      Rule.seq [TokenPart.sub RuleName.AlphaNumUChar false true,
        TokenPart.sub RuleName.AlphaNumUChars true true] false from rfl)] at h
    rcases h1 : extract f RuleName.AlphaNumUChar src i with ⟨ov1, j1⟩
    cases ov1 with
    | none =>
      rw [seqLoop_chain_fail h1] at h
      simp at h
    | some v1 =>
      obtain ⟨c, rfl, hpc, rfl⟩ := extract_regex1_some tok_AlphaNumUChar h1
      rcases h2 : extract f RuleName.AlphaNumUChars src (i + 1) with ⟨ov2, j2⟩
      cases ov2 with
      | none =>
        rw [seqLoop_chain_break h1 h2] at h
        simp [Cap.vals, tokenNameOf, sanitize_single_str] at h
        exact ⟨[c], h.1.symm, by simp, by simp [hpc]⟩
      | some v2 =>
        obtain ⟨t, rfl, htne, htall⟩ := ih h2
        rw [seqLoop_chain_cont h1 h2] at h
        simp [Cap.vals, tokenNameOf, sanitize_two_str] at h
        refine ⟨c :: t, ?_, by simp, by simp [hpc, htall]⟩
        rw [← h.1]

theorem key_some {f : Nat} {src : List Char} {i j : Nat} {cap : Cap}
    (h : extract f RuleName.Key src i = (some cap, j)) :
    ∃ k, cap = Cap.tok (some RuleName.Key) [Cap.str k] ∧ validKeyL k = true := by
  cases f with
  | zero => simp [extract_zero] at h
  | succ f =>
    rw [extract_succ_seq (show TOKENS RuleName.Key =
      Rule.seq [TokenPart.sub RuleName.AlphaUChar false true,
        TokenPart.sub RuleName.AlphaNumUChars true true] false from rfl)] at h
    rcases h1 : extract f RuleName.AlphaUChar src i with ⟨ov1, j1⟩
    cases ov1 with
    | none =>
      rw [seqLoop_chain_fail h1] at h
      simp at h
    | some v1 =>
      obtain ⟨c, rfl, hpc, rfl⟩ := extract_regex1_some tok_AlphaUChar h1
      rcases h2 : extract f RuleName.AlphaNumUChars src (i + 1) with ⟨ov2, j2⟩
      cases ov2 with
      | none =>
        rw [seqLoop_chain_break h1 h2] at h
        simp [Cap.vals, tokenNameOf, sanitize_single_str] at h
        refine ⟨[c], h.1.symm, ?_⟩
        simp [validKeyL, hpc]
      | some v2 =>
        obtain ⟨t, rfl, htne, htall⟩ := anuchars_some f h2
        rw [seqLoop_chain_cont h1 h2] at h
        simp [Cap.vals, tokenNameOf, sanitize_two_str] at h
        refine ⟨c :: t, ?_, ?_⟩
        · rw [← h.1]
        · simp [validKeyL, hpc, htall]

theorem sanitize_entry2 (a : Option RuleName) (b : List Cap) (s : List Char) :
    sanitize [Cap.tok a b, Cap.str s] = [Cap.tok a b, Cap.str s] := rfl

theorem seqLoop_entry_fail {recur : RuleName → Nat → Option Cap × Nat}
    {src : List Char} {i j1 : Nat}
    (h1 : recur RuleName.Key i = (none, j1)) :
    seqLoop recur src [TokenPart.sub RuleName.Key false false,
      TokenPart.lit ['='], TokenPart.sub RuleName.String true false] i = none := by
  simp [seqLoop, h1]

theorem seqLoop_entry_badlit {recur : RuleName → Nat → Option Cap × Nat}
    {src : List Char} {i j : Nat} {v : Cap}
    (h1 : recur RuleName.Key i = (some v, j))
    (hl : litMatches src j ['='] = false) :
    seqLoop recur src [TokenPart.sub RuleName.Key false false,
      TokenPart.lit ['='], TokenPart.sub RuleName.String true false] i = none := by
  simp [seqLoop, h1, hl]

theorem seqLoop_entry_noval {recur : RuleName → Nat → Option Cap × Nat}
    {src : List Char} {i j j2 : Nat} {v : Cap}
    (h1 : recur RuleName.Key i = (some v, j))
    (hl : litMatches src j ['='] = true)
    (h2 : recur RuleName.String (j + 1) = (none, j2)) :
    seqLoop recur src [TokenPart.sub RuleName.Key false false,
      TokenPart.lit ['='], TokenPart.sub RuleName.String true false] i =
      some ([v, Cap.str ['=']], j + 1) := by
  simp [seqLoop, h1, hl, h2]

theorem seqLoop_entry_withval {recur : RuleName → Nat → Option Cap × Nat}
    {src : List Char} {i j k : Nat} {v w : Cap}
    (h1 : recur RuleName.Key i = (some v, j))
    (hl : litMatches src j ['='] = true)
    (h2 : recur RuleName.String (j + 1) = (some w, k)) :
    seqLoop recur src [TokenPart.sub RuleName.Key false false,
      TokenPart.lit ['='], TokenPart.sub RuleName.String true false] i =
      some ([v, Cap.str ['='], w], k) := by
  simp [seqLoop, h1, hl, h2]

theorem keyedEntry_some {f : Nat} {src : List Char} {i j : Nat} {cap : Cap}
    (h : extract f RuleName.keyedEntry src i = (some cap, j)) :
    ∃ k rest2, cap = Cap.tok (some RuleName.keyedEntry)
        (Cap.tok (some RuleName.Key) [Cap.str k] :: Cap.str ['='] :: rest2) ∧
      validKeyL k = true ∧
      (rest2 = [] ∨ ∃ nm vs, rest2 = [Cap.tok nm vs]) := by
  cases f with
  | zero => simp [extract_zero] at h
  | succ f =>
    rw [extract_succ_seq (show TOKENS RuleName.keyedEntry =
      Rule.seq [TokenPart.sub RuleName.Key false false,
        TokenPart.lit ['='], TokenPart.sub RuleName.String true false] false
      from rfl)] at h
    rcases h1 : extract f RuleName.Key src i with ⟨ov1, j1⟩
    cases ov1 with
    | none =>
      rw [seqLoop_entry_fail h1] at h
      simp at h
    | some v1 =>
      obtain ⟨k, rfl, hk⟩ := key_some h1
      by_cases hl : litMatches src j1 ['='] = true
      · rcases h2 : extract f RuleName.String src (j1 + 1) with ⟨ov2, j2⟩
        cases ov2 with
        | none =>
          rw [seqLoop_entry_noval h1 hl h2] at h
          simp [tokenNameOf, sanitize_entry2] at h
          exact ⟨k, [], h.1.symm, hk, Or.inl rfl⟩
        | some v2 =>
          obtain ⟨nm2, vs2, rfl⟩ := extract_some_is_tok f RuleName.String h2
          rw [seqLoop_entry_withval h1 hl h2] at h
          simp [tokenNameOf, sanitize_entry3] at h
          exact ⟨k, [Cap.tok nm2 vs2], h.1.symm, hk, Or.inr ⟨nm2, vs2, rfl⟩⟩
      · rw [seqLoop_entry_badlit h1 (by simpa using hl)] at h
        simp at h

/-! ### Soundness of the lexer and the assembler -/

/-- What the assembler needs to know about any capture the lexer may yield:
a `keyedEntry`-named capture carries a valid key and a possible value
token. -/
def goodCap (cap : Cap) : Prop :=
  cap.tokName = some RuleName.keyedEntry →
    ∃ k rest2, cap.vals =
        Cap.tok (some RuleName.Key) [Cap.str k] :: Cap.str ['='] :: rest2 ∧
      validKeyL k = true ∧ (rest2 = [] ∨ ∃ nm vs, rest2 = [Cap.tok nm vs])

theorem lexAll_unfold_succ (f : Nat) (src : List Char) (i : Nat) :
    lexAll (f + 1) src i =
      (if i < src.length then
        match lexStep (f + 1) src i with
        | (caps, j) =>
          if j = i then (caps, some (stuckError src i))
          else
            match lexAll f src j with
            | (caps2, err) => (caps ++ caps2, err)
      else ([], none)) := rfl

theorem mem_lexStep_good {f : Nat} {src : List Char} {i : Nat} {cap : Cap}
    (hc : cap ∈ (lexStep f src i).1) : goodCap cap := by
  rcases hw : extract f RuleName.Whitespace src i with ⟨ow, iw⟩
  rcases hcm : extract f RuleName.Comment src iw with ⟨oc, ic⟩
  rcases hke : extract f RuleName.keyedEntry src ic with ⟨ok2, ik⟩
  have hstep : (lexStep f src i).1 = ow.toList ++ oc.toList ++ ok2.toList := by
    simp [lexStep, hw, hcm, hke]
  rw [hstep] at hc
  rcases List.mem_append.mp hc with hc1 | hc3
  · rcases List.mem_append.mp hc1 with hcw | hcc
    · cases ow with
      | none => simp at hcw
      | some w =>
        simp at hcw
        subst hcw
        obtain ⟨vs, hv⟩ := extract_seq_some tok_Whitespace hw
        intro hname
        rw [hv] at hname
        simp [Cap.tokName, tokenNameOf] at hname
    · cases oc with
      | none => simp at hcc
      | some w =>
        simp at hcc
        subst hcc
        obtain ⟨vs, hv⟩ := extract_seq_some tok_Comment hcm
        intro hname
        rw [hv] at hname
        simp [Cap.tokName, tokenNameOf] at hname
  · cases ok2 with
    | none => simp at hc3
    | some w =>
      simp at hc3
      subst hc3
      obtain ⟨k, rest2, hv, hk, hr⟩ := keyedEntry_some hke
      intro _
      rw [hv]
      exact ⟨k, rest2, rfl, hk, hr⟩

theorem lexAll_caps_good :
    ∀ (f : Nat) (src : List Char) (i : Nat),
    ∀ cap ∈ (lexAll f src i).1, goodCap cap := by
  intro f
  induction f with
  | zero => intro src i cap hc; simp [lexAll] at hc
  | succ f ih =>
    intro src i cap hc
    rw [lexAll_unfold_succ] at hc
    by_cases hi : i < src.length
    · rw [if_pos hi] at hc
      rcases hstep : lexStep (f + 1) src i with ⟨caps1, j⟩
      rw [hstep] at hc
      replace hc : cap ∈ (if j = i then (caps1, some (stuckError src i))
          else match lexAll f src j with
            | (caps2, err) => (caps1 ++ caps2, err)).1 := hc
      by_cases hj : j = i
      · rw [if_pos hj] at hc
        exact mem_lexStep_good (by rw [hstep]; exact hc)
      · rw [if_neg hj] at hc
        rcases hrec : lexAll f src j with ⟨caps2, err⟩
        rw [hrec] at hc
        rcases List.mem_append.mp hc with hc1 | hc2
        · exact mem_lexStep_good (by rw [hstep]; exact hc1)
        · have := ih src j cap
          rw [hrec] at this
          exact this hc2
    · rw [if_neg hi] at hc
      simp at hc

/-- The structural invariant of documents built by the plain-mode
assembler: every entry is a `plain` value under a grammar-valid key, and
keys are distinct. -/
def DocOKP (m : List (String × EntryVal)) : Prop :=
  (∀ p ∈ m, validKeyStr p.1 = true ∧ ∃ v, p.2 = EntryVal.plain v) ∧
    (m.map Prod.fst).Nodup

theorem setKey_docOK {m : List (String × EntryVal)} {k : String} {v : String}
    (h : DocOKP m) (hk : validKeyStr k = true) :
    DocOKP (setKey m k (EntryVal.plain v)) := by
  by_cases hp : m.any (fun p => p.1 = k) = true
  · constructor
    · intro p hpm
      rw [setKey, if_pos hp, List.mem_map] at hpm
      obtain ⟨q, hq, rfl⟩ := hpm
      by_cases hqk : q.1 = k
      · rw [if_pos hqk]
        exact ⟨hk, v, rfl⟩
      · rw [if_neg hqk]
        exact h.1 q hq
    · rw [setKey, if_pos hp]
      have he : (m.map (fun p => if p.1 = k then (k, EntryVal.plain v) else p)).map
          Prod.fst = m.map Prod.fst := by
        rw [List.map_map]
        refine List.map_congr_left ?_
        intro p _
        by_cases hpk : p.1 = k
        · simp [hpk]
        · simp [hpk]
      rw [he]
      exact h.2
  · rw [setKey, if_neg hp]
    constructor
    · intro p hpm
      rcases List.mem_append.mp hpm with hm | hs
      · exact h.1 p hm
      · simp at hs
        rw [hs]
        exact ⟨hk, v, rfl⟩
    · rw [List.map_append]
      rw [List.nodup_append]
      refine ⟨h.2, by simp, ?_⟩
      intro a ha
      simp only [List.map_cons, List.map_nil, List.mem_cons, List.not_mem_nil,
        or_false]
      intro hak
      subst hak
      rw [List.mem_map] at ha
      obtain ⟨q, hq, hq1⟩ := ha
      rw [Bool.not_eq_true, List.any_eq_false] at hp
      exact hp q hq (by simp [hq1])

theorem assembleLoop_cons (xd : Bool) (entry : Cap) (rest : List Cap)
    (m : List (String × EntryVal)) (lastDescription : List Char) :
    assembleLoop xd (entry :: rest) m lastDescription =
      (if entry.tokName = some RuleName.Whitespace then
        assembleLoop xd rest m lastDescription
      else
        match entry.tokName with
        | some RuleName.Comment =>
          (match jsAt entry.vals 1 with
           | some c1 =>
             match jsAt c1.vals 0 with
             | some (Cap.str inner) =>
               assembleLoop xd rest m
                 ((if !(lastDescription = []) then lastDescription ++ ['\n']
                   else lastDescription) ++ trimL inner)
             | _ => .error .typeError
           | none => .error .typeError)
        | some RuleName.keyedEntry =>
          (match jsAt entry.vals 0 with
           | some k0 =>
             match jsAt k0.vals 0 with
             | some (Cap.str key) =>
               (match
                  (match jsAt entry.vals 2 with
                   | none => Except.ok ([] : List Char)
                   | some sv => parseString sv) with
                | .ok v =>
                  let val :=
                    if xd then
                      EntryVal.described
                        (if !(lastDescription = []) then
                          some (String.mk lastDescription)
                         else none)
                        (String.mk v)
                    else EntryVal.plain (String.mk v)
                  assembleLoop xd rest (setKey m (String.mk key) val) []
                | .error e => .error e)
             | _ => .error .typeError
           | none => .error .typeError)
        | _ => assembleLoop xd rest m lastDescription) := rfl

theorem assemble_sound :
    ∀ (caps : List Cap) (m : List (String × EntryVal)) (ld : List Char)
      (m2 : List (String × EntryVal)),
    (∀ cap ∈ caps, goodCap cap) → DocOKP m →
    assembleLoop false caps m ld = .ok m2 → DocOKP m2 := by
  intro caps
  induction caps with
  | nil =>
    intro m ld m2 _ hm h
    simp [assembleLoop] at h
    rw [← h]
    exact hm
  | cons cap rest ih =>
    intro m ld m2 hgood hm h
    have hgrest : ∀ c ∈ rest, goodCap c :=
      fun c hc => hgood c (List.mem_cons_of_mem _ hc)
    rw [assembleLoop_cons] at h
    rcases hname : cap.tokName with _ | nm
    · rw [hname] at h
      simp at h
      exact ih m ld m2 hgrest hm h
    · cases nm
      case Whitespace =>
        rw [hname] at h
        simp at h
        exact ih m ld m2 hgrest hm h
      case Comment =>
        rw [hname] at h
        rcases hj1 : jsAt cap.vals 1 with _ | c1
        · rw [hj1] at h
          simp at h
        · rw [hj1] at h
          replace h : (match jsAt c1.vals 0 with
            | some (Cap.str inner) =>
              assembleLoop false rest m
                ((if !(ld = []) then ld ++ ['\n'] else ld) ++ trimL inner)
            | _ => Except.error JsError.typeError) = Except.ok m2 := by
            simpa using h
          rcases hc0 : jsAt c1.vals 0 with _ | c0
          · rw [hc0] at h
            simp at h
          · rw [hc0] at h
            cases c0 with
            | str inner => exact ih m _ m2 hgrest hm h
            | tok n2 v2 => simp at h
      case keyedEntry =>
        obtain ⟨k, rest2, hvals, hk, hr2⟩ := hgood cap (by simp) hname
        rw [hname, hvals] at h
        have hkk : validKeyStr (String.mk k) = true := hk
        rcases hr2 with rfl | ⟨nm2, vs2, rfl⟩
        · replace h : assembleLoop false rest
              (setKey m (String.mk k) (EntryVal.plain (String.mk []))) [] =
              Except.ok m2 := by
            simpa using h
          exact ih _ _ m2 hgrest (setKey_docOK hm hkk) h
        · replace h : (match parseString (Cap.tok nm2 vs2) with
            | .ok v =>
              assembleLoop false rest
                (setKey m (String.mk k) (EntryVal.plain (String.mk v))) []
            | .error e => Except.error e) = Except.ok m2 := by
            simpa using h
          rcases hps : parseString (Cap.tok nm2 vs2) with e | v
          · rw [hps] at h
            simp at h
          · rw [hps] at h
            exact ih _ _ m2 hgrest (setKey_docOK hm hkk) h
      all_goals (
        rw [hname] at h
        simp at h
        exact ih m ld m2 hgrest hm h)

/-- Any document returned by plain-mode `parse` has grammar-valid, distinct
keys and only plain string values. -/
theorem parse_ok_docOK {src : String} {doc : List (String × EntryVal)}
    (h : parse src false = .ok doc) : DocOKP doc := by
  unfold parse at h
  replace h : (match lexAll (parseFuel src.toList) src.toList 0 with
    | (caps, lexErr) =>
      match assembleLoop false caps [] [] with
      | Except.error e => Except.error e
      | Except.ok m =>
        match lexErr with
        | some e => Except.error e
        | none => Except.ok m) = Except.ok doc := h
  rcases hl : lexAll (parseFuel src.toList) src.toList 0 with ⟨caps, lexErr⟩
  rw [hl] at h
  simp only [] at h
  rcases hasm : assembleLoop false caps [] [] with e | m
  · rw [hasm] at h
    simp at h
  · rw [hasm] at h
    cases lexErr with
    | some e =>
      simp at h
    | none =>
      simp at h
      subst h
      refine assemble_sound caps [] [] m ?_ ⟨by simp, by simp⟩ hasm
      intro cap hc
      have := lexAll_caps_good (parseFuel src.toList) src.toList 0 cap
      rw [hl] at this
      exact this hc

/-! ### The frame property of `extract` -/

theorem orLoop_none_frame (f : Nat) (src : List Char)
    (hrec : ∀ a i, (extract f a src i).1 = none → (extract f a src i).2 = i) :
    ∀ (alts : List RuleName) (i : Nat),
    (orLoop (fun t k => extract f t src k) alts i).1 = none →
    (orLoop (fun t k => extract f t src k) alts i).2 = i := by
  intro alts
  induction alts with
  | nil => intro i _; rfl
  | cons a rest iha =>
    intro i h
    rcases h1 : extract f a src i with ⟨ov, j1⟩
    cases ov with
    | some v =>
      rw [show orLoop (fun t k => extract f t src k) (a :: rest) i =
          (some v, j1) from by simp [orLoop, h1]] at h
      simp at h
    | none =>
      have hj1 : j1 = i := by
        have h2 := hrec a i
        rw [h1] at h2
        exact h2 rfl
      rw [hj1] at h1
      rw [show orLoop (fun t k => extract f t src k) (a :: rest) i =
          orLoop (fun t k => extract f t src k) rest i from by
        simp [orLoop, h1]] at h ⊢
      exact iha i h

theorem extract_none_frame :
    ∀ (fuel : Nat) (nm : RuleName) (src : List Char) (i : Nat),
    (extract fuel nm src i).1 = none → (extract fuel nm src i).2 = i := by
  intro fuel
  induction fuel with
  | zero => intro nm src i _; rfl
  | succ f ih =>
    intro nm src i h
    rcases hn : TOKENS nm with ⟨parts, rep⟩ | alts
    · rw [extract_succ_seq hn] at h ⊢
      rcases hs : seqLoop (fun t k => extract f t src k) src parts i with _ | ⟨vals, j⟩
      · rfl
      · rw [hs] at h
        simp at h
    · rw [extract_succ_alt hn] at h ⊢
      exact orLoop_none_frame f src (fun a i2 => ih a src i2) alts i h

/-! ## The claims -/

/-- C1: for every Document produced by `parse` with
`extractDescriptions: false` whose values contain no embedded control
characters, `parse (serialize doc) = doc`. -/
theorem c1_parse_serialize_roundtrip :
    ∀ (src : String) (doc : List (String × EntryVal)),
    parse src false = .ok doc →
    (∀ p ∈ doc, ∀ c ∈ (entryValue p.2).toList, ¬ c.toNat < 32) →
    parse (serialize doc) false = .ok doc := by
  intro src doc h hctl
  obtain ⟨hent, hnd⟩ := parse_ok_docOK h
  refine parse_serialize_plain doc (fun p hp => (hent p hp).2)
    (fun p hp => (hent p hp).1) hnd ?_
  intro p hp
  rw [vOK, Bool.or_eq_true]
  right
  rw [List.all_eq_true]
  intro c hc
  rw [jsonAtomic, Bool.or_eq_true]
  left
  simp [hctl p hp c hc]

/-- Witness for C1 at the concrete document parsed from `A=x`. -/
theorem c1_witness :
    parse "A=x" false = .ok [("A", EntryVal.plain "x")] ∧
    parse (serialize [("A", EntryVal.plain "x")]) false =
      .ok [("A", EntryVal.plain "x")] :=
  ⟨by rfl, c1_parse_serialize_roundtrip "A=x" [("A", EntryVal.plain "x")]
    (by rfl) (by decide)⟩

/-- C2 (counterexample): with key `A` and the one-character value NUL,
serialization emits the `\u0000` escape, which the grammar cannot re-parse:
`parse` raises a syntax error instead of returning the mapping. -/
theorem c2_counterexample :
    parse (serialize [("A", EntryVal.plain (String.mk [Char.ofNat 0]))]) false =
      .error (JsError.syntaxError (String.mk ['\\']) 3
        (String.mk ['\\', 'u', '0', '0', '0', '0', '"'])) ∧
    Except.error (JsError.syntaxError (String.mk ['\\']) 3
        (String.mk ['\\', 'u', '0', '0', '0', '0', '"'])) ≠
      (Except.ok [("A", EntryVal.plain (String.mk [Char.ofNat 0]))] :
        Except JsError (List (String × EntryVal))) :=
  ⟨by rfl, fun h => Except.noConfusion h⟩

/-- C2 (amended): for every valid key and every value that either contains a
newline and no apostrophe (single-quote branch), or whose control
characters all have named JSON escapes, serializing the one-entry mapping
and re-parsing recovers it. -/
theorem c2_amended_value_roundtrip :
    ∀ (k v : String), validKeyStr k = true →
    ((v.toList.contains '\n' = true ∧ v.toList.contains apos = false) ∨
      (∀ c ∈ v.toList, c.toNat < 32 → c ∈ namedCtl)) →
    parse (serialize [(k, EntryVal.plain v)]) false =
      .ok [(k, EntryVal.plain v)] := by
  intro k v hk hv
  refine parse_serialize_plain [(k, EntryVal.plain v)]
    (by simp) (by simpa using hk) (by simp) ?_
  intro p hp
  simp at hp
  subst hp
  rw [vOK, Bool.or_eq_true]
  rcases hv with ⟨h1, h2⟩ | h
  · left
    simp only [entryValue]
    rw [h1, h2]
    rfl
  · right
    rw [List.all_eq_true]
    intro c hc
    rw [jsonAtomic, Bool.or_eq_true]
    by_cases hctl : c.toNat < 32
    · right
      simpa using h c (by simpa [entryValue] using hc) hctl
    · left
      simp [hctl]

/-- Witness for the amended C2 at `A` and the value `a\nb`. -/
theorem c2_amended_witness :
    parse (serialize [("A", EntryVal.plain "a\nb")]) false =
      .ok [("A", EntryVal.plain "a\nb")] :=
  c2_amended_value_roundtrip "A" "a\nb" (by decide) (Or.inl (by decide))

/-- C3 (counterexample): the defensive length-3 fallback of the String
decoder is reachable through the public grammar: `A="` is accepted by
`parse`, its String capture is a `QuotedString` with a single element, and
the decoder takes the fallback, producing the empty string. -/
theorem c3_counterexample :
    parse "A=\"" false = .ok [("A", EntryVal.plain "")] ∧
    extract (parseFuel ("A=\"".toList)) RuleName.String ("A=\"".toList) 2 =
      (some (Cap.tok (some RuleName.QuotedString) [Cap.str ['"']]), 3) ∧
    ¬ (Cap.tok (some RuleName.QuotedString) [Cap.str ['"']]).tokName =
        some RuleName.UnquotedString ∧
    ¬ (Cap.tok (some RuleName.QuotedString) [Cap.str ['"']]).vals.length = 3 :=
  ⟨by rfl, by rfl, by decide, by decide⟩

/-- C3 (amended): the defensive branch is reachable: on the accepted input
`A="` the decoder receives a one-element non-unquoted capture and returns
the empty string through the fallback. -/
theorem c3_amended_fallback_reachable :
    parseString (Cap.tok (some RuleName.QuotedString) [Cap.str ['"']]) =
      .ok [] ∧
    parse "A=\"" false = .ok [("A", EntryVal.plain "")] :=
  ⟨by rfl, by rfl⟩

/-- C4: a comment with text accumulates trimmed lines into the
description, but on a bare `#` line the assembler dereferences the absent
`CommentChars` capture and the source throws a TypeError, so `parse` does
fail on a bare `#` comment line (the claim's never-fails part is a code
bug). -/
theorem c4_comment_behavior :
    parse "#" true = .error JsError.typeError ∧
    parse "# line one\n# line two\nA=x" true =
      .ok [("A", EntryVal.described (some "line one\nline two") "x")] :=
  ⟨by rfl, by rfl⟩

/-- C5 (counterexample): `parse "A#B"` raises its syntax error at offset 0
(the start of the stuck iteration), not offset 1 as claimed. -/
theorem c5_counterexample :
    parse "A#B" false = .error (JsError.syntaxError "A" 0 "A#B") ∧
    (0 : Nat) ≠ 1 :=
  ⟨by rfl, by decide⟩

/-- C5 (amended): `parse "A#B"` raises a SyntaxError whose reported
zero-based offset is 0 (the iteration start at which no rule advanced),
whose message includes the offending character `A`, and whose same-line
preview is `A#B` (at most 25 characters). -/
theorem c5_amended_error_at_zero :
    parse "A#B" false = .error (JsError.syntaxError "A" 0 "A#B") := by
  rfl

/-- C6: when `extract` fails, the caller's cursor (`state.index`) is left
exactly at its original offset; the cursor advances only on overall
success. -/
theorem c6_extract_fail_frame :
    ∀ (fuel : Nat) (nm : RuleName) (src : List Char) (i : Nat),
    (extract fuel nm src i).1 = none → (extract fuel nm src i).2 = i :=
  extract_none_frame

/-- Witness for C6 at a concrete failing extraction. -/
theorem c6_witness :
    (extract 5 RuleName.Comment ['A'] 0).1 = none ∧
    (extract 5 RuleName.Comment ['A'] 0).2 = 0 :=
  ⟨by rfl, c6_extract_fail_frame 5 RuleName.Comment ['A'] 0 (by rfl)⟩

/-- C7: inside double-quoted strings exactly the seven two-character
escape pairs are decoded per the table; a single-quoted-string character
is any single character other than the apostrophe, taken literally; and
`parse` on `A='a\nb'` (literal backslash-n) keeps the backslash and `n`
as two characters. -/
theorem c7_escape_table :
    (∀ (f : Nat) (src r : List Char) (i : Nat) (c : Char),
      src.drop i = '\\' :: c :: r →
      extract (f + 1) RuleName.EscapedChars src i =
        (if isEscLetter c then
          (some (Cap.tok none [Cap.str
            [if c = 'n' then '\n'
             else if c = 't' then '\t'
             else if c = 'b' then Char.ofNat 8
             else if c = 'f' then Char.ofNat 12
             else if c = 'r' then '\r'
             else if c = '"' then '"'
             else '\\']]), i + 2)
        else (none, i))) ∧
    (∀ (f : Nat) (src r : List Char) (i : Nat) (c : Char),
      src.drop i = c :: r → isUnescSQChar c = true →
      extract (f + 2) RuleName.SingleQuotedStringChar src i =
        (some (Cap.tok (some RuleName.UnescapedSingleQuotedStringChar)
          [Cap.str [c]]), i + 1)) ∧
    parse (String.mk ['A', '=', apos, 'a', '\\', 'n', 'b', apos]) false =
      .ok [("A", EntryVal.plain (String.mk ['a', '\\', 'n', 'b']))] := by
  refine ⟨?_, ?_, by rfl⟩
  · intro f src r i c hdrop
    by_cases he : isEscLetter c = true
    · rw [if_pos he, escapedChars_success hdrop he]
      have hdec : decodeEscape ['\\', c] =
          [if c = 'n' then '\n'
           else if c = 't' then '\t'
           else if c = 'b' then Char.ofNat 8
           else if c = 'f' then Char.ofNat 12
           else if c = 'r' then '\r'
           else if c = '"' then '"'
           else '\\'] := by
        rw [isEscLetter] at he
        simp only [Bool.or_eq_true, decide_eq_true_eq] at he
        rcases he with ((((((rfl | rfl) | rfl) | rfl) | rfl) | rfl) | rfl) <;>
          decide
      rw [hdec]
    · rw [if_neg he, escapedChars_fail_badletter hdrop (by simpa using he)]
  · intro f src r i c hdrop hc
    exact sqchar_step f hdrop hc

/-- Witness for C7 at the escape pair backslash-n and the literal
character `x`. -/
theorem c7_witness :
    extract 1 RuleName.EscapedChars ['\\', 'n'] 0 =
      (some (Cap.tok none [Cap.str ['\n']]), 2) ∧
    extract 2 RuleName.SingleQuotedStringChar ['x'] 0 =
      (some (Cap.tok (some RuleName.UnescapedSingleQuotedStringChar)
        [Cap.str ['x']]), 1) := by
  constructor
  · have h := c7_escape_table.1 0 ['\\', 'n'] [] 0 'n' (by rfl)
    simpa using h
  · exact c7_escape_table.2.1 0 ['x'] [] 0 'x' (by rfl) (by decide)

/-- C8: `serializeString` wraps a value in verbatim single quotes exactly
when it contains a newline and no apostrophe, and otherwise emits the
double-quoted JSON form, whose per-character escaping prefixes a backslash
to every quote, backslash and control character. -/
theorem c8_serialize_string :
    ∀ (v : String) (c : Char),
    serializeString v =
      (if v.toList.contains '\n' && !(v.toList.contains apos) then
        String.mk (apos :: v.toList ++ [apos])
      else String.mk ('"' :: (v.toList.map escJsonChar).flatten ++ ['"'])) ∧
    (escJsonChar c).head? =
      (if c = '"' || c = '\\' || decide (c.toNat < 32) then some '\\'
       else some c) := by
  intro v c
  constructor
  · rw [serializeString, serializeStringL]
    split_ifs with h
    · rfl
    · rfl
  · rcases eq_or_ne c '"' with rfl | h1
    · decide
    rcases eq_or_ne c '\\' with rfl | h2
    · decide
    rcases eq_or_ne c (Char.ofNat 8) with rfl | h4
    · decide
    rcases eq_or_ne c '\t' with rfl | h5
    · decide
    rcases eq_or_ne c '\n' with rfl | h6
    · decide
    rcases eq_or_ne c (Char.ofNat 12) with rfl | h7
    · decide
    rcases eq_or_ne c '\r' with rfl | h8
    · decide
    by_cases h3 : c.toNat < 32
    · simp [escJsonChar, h1, h2, h4, h5, h6, h7, h8, h3]
    · rw [escJsonChar_plain h3 h1 h2]
      simp [h1, h2, h3]

/-- C9: parsing an unterminated double-quoted value succeeds: `A="` yields
the mapping of `A` to the empty string, the `QuotedString` rule consuming
only the opening quote (the optional inner rule fails and the break skips
the closing-quote element), and the decoder's length-3 fallback turning
the one-element capture into the empty string. -/
theorem c9_unterminated_quote :
    parse "A=\"" false = .ok [("A", EntryVal.plain "")] ∧
    extract (parseFuel ("A=\"".toList)) RuleName.QuotedString ("A=\"".toList) 2 =
      (some (Cap.tok (some RuleName.QuotedString) [Cap.str ['"']]), 3) ∧
    parseString (Cap.tok (some RuleName.QuotedString) [Cap.str ['"']]) =
      .ok [] :=
  ⟨by rfl, by rfl, by rfl⟩

/-- C10: parsing an empty single-quoted value raises a syntax error: on
`A=''` the `SingleQuotedString` rule consumes only the opening apostrophe,
leaving the second apostrophe at a cursor where no top-level rule can
advance, so the lexer's stuck-cursor error is raised at offset 3. -/
theorem c10_empty_single_quote :
    parse (String.mk ['A', '=', apos, apos]) false =
      .error (JsError.syntaxError (String.mk [apos]) 3 (String.mk [apos])) ∧
    extract (parseFuel ['A', '=', apos, apos]) RuleName.SingleQuotedString
        ['A', '=', apos, apos] 2 =
      (some (Cap.tok (some RuleName.SingleQuotedString) [Cap.str [apos]]), 3) :=
  ⟨by rfl, by rfl⟩

end Dotenv
